import Mathlib

/-!
Verification of the WikiKnowledgeGraph graph-construction engine.

Shallow embedding of the repository's core modules:
  * `consolidateEdges` (frontend/src/utils/consolidateEdges.ts)
  * `findShortestPath` (frontend/src/lib/shortestPath.ts)
  * sanitization (frontend/src/lib/sanitization.ts)
  * the SPARQL client `getWikidataId` / `fetchBatchConnections` (lib/sparql.ts)
  * the response cache `cachedFetch` / `generateMap` (frontend/src/api.ts)
  * the crawler `generateGraph` (lib/graphGenerator.ts)

JavaScript `Map`s and plain objects used as dictionaries are modelled as
insertion-ordered association lists; network and storage capabilities are
injected as explicit oracle parameters, mirroring the repository's own view
of the transport layer as an injected capability.
-/

namespace WikiKG

/-- Edge record, mirroring `GraphEdge` of types.ts.  `from` is a Lean keyword,
hence the field is named `from_`. -/
structure GraphEdge where
  id : String
  from_ : String
  to_ : String
  label : String
  arrows : String := "to"
  category : Option String := none
  deriving Repr, DecidableEq

/-- Consolidated display edge, mirroring `ConsolidatedEdge` of
consolidateEdges.ts (`extends GraphEdge` with `labels` and `count`). -/
structure ConsolidatedEdge extends GraphEdge where
  labels : List String
  count : Nat
  deriving Repr, DecidableEq

/-- The grouping key `` `${edge.from}-${edge.to_}` `` of consolidateEdges.ts. -/
def consKey (e : GraphEdge) : String :=
  e.from_ ++ "-" ++ e.to_

/-- Initial consolidated edge `{...edge, labels: [edge.label], count: 1}`. -/
def consInit (e : GraphEdge) : ConsolidatedEdge :=
  { e with labels := [e.label], count := 1 }

/-- The `existing` branch of consolidateEdges.ts: push the label, bump the
count, re-join the display label. -/
def consAddLabel (c : ConsolidatedEdge) (lbl : String) : ConsolidatedEdge :=
  let labels' := c.labels ++ [lbl]
  { c with
    labels := labels'
    count := c.count + 1
    label := String.intercalate ", " labels' }

/-- One step of the map update of consolidateEdges.ts: the JS `Map` keeps the
entry at its original position on update and appends new keys at the end. -/
def consUpdate : List (String × ConsolidatedEdge) → String → GraphEdge →
    List (String × ConsolidatedEdge)
  | [], k, e => [(k, consInit e)]
  | (k', c) :: rest, k, e =>
    if k' = k then (k', consAddLabel c e.label) :: rest
    else (k', c) :: consUpdate rest k e

/-- `consolidateEdges` of consolidateEdges.ts. -/
def consolidateEdges (edges : List GraphEdge) : List ConsolidatedEdge :=
  (edges.foldl (fun m e => consUpdate m (consKey e) e) []).map Prod.snd

/-- Sum of the `count` fields over an accumulator map. -/
def consCountSum (m : List (String × ConsolidatedEdge)) : Nat :=
  (m.map (fun p => p.2.count)).sum

/-- The input edges that fall into the group with key `k`. -/
def consGroup (seen : List GraphEdge) (k : String) : List GraphEdge :=
  seen.filter (fun e => consKey e = k)

/-- Invariant tying the consolidation accumulator to the processed prefix of
the input: every entry holds exactly the labels (in order), the count and the
base fields of its key's group. -/
def ConsInv (seen : List GraphEdge) (m : List (String × ConsolidatedEdge)) : Prop :=
  (m.map Prod.fst).Nodup ∧
  (∀ p ∈ m,
      consGroup seen p.1 ≠ [] ∧
      p.2.labels = (consGroup seen p.1).map (fun e => e.label) ∧
      p.2.count = (consGroup seen p.1).length ∧
      p.2.label = String.intercalate ", " p.2.labels ∧
      (∀ e0, (consGroup seen p.1).head? = some e0 →
        p.2.id = e0.id ∧ p.2.from_ = e0.from_ ∧ p.2.to_ = e0.to_)) ∧
  (∀ e ∈ seen, consKey e ∈ m.map Prod.fst)

/-- The group key reconstructed from a consolidated edge's own fields. -/
def consKeyOf (c : ConsolidatedEdge) : String :=
  c.from_ ++ "-" ++ c.to_

/-! ### Sanitization (frontend/src/lib/sanitization.ts) -/

/-- JS whitespace for `String.prototype.trim` (restricted to the ASCII range;
the claims only involve ASCII data). -/
def isWs (c : Char) : Bool :=
  c = ' ' || c = Char.ofNat 9 || c = Char.ofNat 10 || c = Char.ofNat 13 ||
  c = Char.ofNat 11 || c = Char.ofNat 12

/-- JS `name.trim()`, implemented over the character list so that it is fully
kernel-executable. -/
def trimStr (s : String) : String :=
  ⟨(((s.data.dropWhile isWs).reverse).dropWhile isWs).reverse⟩

/-- JS `toUpperCase` on one character (ASCII range, enough for QIDs). -/
def asciiUpper (c : Char) : Char :=
  if 'a' ≤ c && c ≤ 'z' then Char.ofNat (c.toNat - 32) else c

/-- JS `qid.toUpperCase()` (ASCII range). -/
def toUpperStr (s : String) : String :=
  ⟨s.data.map asciiUpper⟩

/-- Backslash character, written via its code point to keep escaping readable. -/
def bslash : Char := Char.ofNat 92

/-- Double-quote character. -/
def dquote : Char := Char.ofNat 34

/-- Single-quote character. -/
def squote : Char := Char.ofNat 39

/-- Per-character effect of the six sequential global single-character
`replace` calls of `sanitizeEntityName` (backslash first, so later escapes are
not re-escaped; the composition of those replaces equals this single pass over
the original characters). -/
def escapeSparqlChar (c : Char) : List Char :=
  if c = bslash then [bslash, bslash]
  else if c = dquote then [bslash, dquote]
  else if c = squote then [bslash, squote]
  else if c = Char.ofNat 10 then [bslash, 'n']
  else if c = Char.ofNat 13 then [bslash, 'r']
  else if c = Char.ofNat 9 then [bslash, 't']
  else [c]

/-- `sanitizeEntityName` of sanitization.ts.  The `typeof` check is subsumed
by the model's types; the empty-string check mirrors JS falsiness of `""`. -/
def sanitizeEntityName (name : String) : Except String String :=
  if name = "" then .error "Entity name must be a non-empty string"
  else
    let name := trimStr name
    if name = "" then .error "Entity name cannot be empty or whitespace only"
    else if name.length > 200 then .error "Entity name is too long (max 200 characters)"
    else .ok ⟨name.data.foldr (fun c acc => escapeSparqlChar c ++ acc) []⟩

/-- `isValidQid` of sanitization.ts: the regex `Q` followed by one or more
digits, anchored at both ends. -/
def isValidQid (qid : String) : Bool :=
  match qid.data with
  | [] => false
  | c :: rest => c = 'Q' && !rest.isEmpty && rest.all Char.isDigit

/-- `sanitizeQid` of sanitization.ts. -/
def sanitizeQid (qid : String) : Except String String :=
  if qid = "" then .error "QID must be a non-empty string"
  else
    let q := toUpperStr (trimStr qid)
    if isValidQid q then .ok q
    else .error ("Invalid QID format: " ++ q ++ ". Expected format: Q followed by digits (e.g., Q42)")

/-- `validateDepth` of sanitization.ts; the model restricts the JS number to
an integer, on which `Math.floor` is the identity and `isNaN` is false. -/
def validateDepth (depth : Int) : Except String Nat :=
  if depth < 1 then .error "Depth must be at least 1"
  else if depth > 10 then .error "Depth cannot exceed 10 (performance limit)"
  else .ok depth.toNat

/-- The dedup loop of `validateEntityList`: skip blank entries, keep the first
occurrence of each trimmed value. -/
def dedupTrimmed : List String → List String → List String
  | [], _ => []
  | e :: rest, seen =>
    let t := trimStr e
    if t = "" then dedupTrimmed rest seen
    else if seen.contains t then dedupTrimmed rest seen
    else t :: dedupTrimmed rest (t :: seen)

/-- `validateEntityList` of sanitization.ts (with the default `maxEntities`
passed explicitly by callers). -/
def validateEntityList (entities : List String) (maxEntities : Nat) :
    Except String (List String) :=
  if entities.isEmpty then .error "At least one entity must be provided"
  else if entities.length > maxEntities then .error "Too many entities"
  else
    let unique := dedupTrimmed entities []
    if unique.isEmpty then .error "At least one non-empty entity must be provided"
    else .ok unique

/-! ### SPARQL client (lib/sparql.ts)

The network transport `querySparql` is injected as an oracle returning either
the parsed rows (at the fields the caller reads) or an error; the
localStorage-backed caches of lib/cache.ts are injected as read maps, with
`setCached*` calls collected into an explicit write log. -/

/-- Raw connection row, mirroring `ConnectionData` of lib/cache.ts. -/
structure ConnectionData where
  source : String
  target : String
  target_label : String
  label : String
  image : Option String
  group : String
  type_label : String
  deriving Repr, DecidableEq

/-- One parsed SPARQL result row of the batch query, at the fields
`fetchBatchConnections` reads.  `source` and `target` are accessed without a
null check in the source; the optional fields go through `?.value`. -/
structure SparqlBinding where
  source : String
  target : String
  propLabel : Option String
  targetLabel : Option String
  isHuman : Option String
  image : Option String
  typeQID : Option String
  typeLabel : Option String
  deriving Repr, DecidableEq

/-- A deferred cache write (`setCachedQid` / `setCachedConnections`). -/
inductive CacheWrite where
  | qid (name : String) (value : String) : CacheWrite
  | conns (q : String) (value : List ConnectionData) : CacheWrite
  deriving Repr, DecidableEq

/-- JS `x?.value || fallback`: both a missing field and an empty string fall
back. -/
def orDefault (o : Option String) (d : String) : String :=
  match o with
  | some s => if s = "" then d else s
  | none => d

/-- JS `x?.value || null`: empty string becomes null. -/
def orNone (o : Option String) : Option String :=
  match o with
  | some s => if s = "" then none else some s
  | none => none

/-- JS `split('/')` on the character list (single-character separator). -/
def splitOnSlash : List Char → List (List Char)
  | [] => [[]]
  | c :: rest =>
    let r := splitOnSlash rest
    if c = '/' then [] :: r
    else
      match r with
      | [] => [[c]]
      | h :: t => (c :: h) :: t

/-- `split('/').pop()` on a URL. -/
def lastSegment (s : String) : String :=
  ⟨(splitOnSlash s.data).getLastD []⟩

/-- `determineGroup` of lib/sparql.ts. -/
def determineGroup (entityTypeQid : String) : String :=
  if entityTypeQid = "Q5" then "person"
  else if ["Q3918", "Q737498", "Q3914", "Q875538", "Q38723"].contains entityTypeQid then "school"
  else if ["Q6256", "Q3624078", "Q1763527"].contains entityTypeQid then "country"
  else if ["Q515", "Q1549591", "Q3455524", "Q532", "Q5119"].contains entityTypeQid then "city"
  else if ["Q2221906", "Q82794", "Q15642541"].contains entityTypeQid then "location"
  else if ["Q43229", "Q163740", "Q484652", "Q2659904"].contains entityTypeQid then "organization"
  else if ["Q4830453", "Q891723", "Q6881511"].contains entityTypeQid then "company"
  else "concept"

/-- The single-result name-lookup query of `getWikidataId`. -/
def qidQuery (sanitizedName : String) : String :=
  "\n    SELECT ?item WHERE \x7b\n      ?item rdfs:label \"" ++ sanitizedName ++
  "\"@en.\n      SERVICE wikibase:label \x7b bd:serviceParam wikibase:language \"en\". \x7d\n    \x7d LIMIT 1\n  "

/-- `SPARQL_RESULT_LIMIT` of lib/sparql.ts. -/
def sparqlResultLimit : Nat := 2000

/-- The batched connection query of `fetchBatchConnections`, as a function of
the `VALUES` clause content. -/
def batchQuery (valuesStr : String) : String :=
  "\n    SELECT ?source ?propLabel ?target ?targetLabel ?isHuman (SAMPLE(?img) AS ?image) ?typeQID (SAMPLE(?typeLbl) AS ?typeLabel) WHERE \x7b\n      VALUES ?source \x7b " ++
  valuesStr ++
  " \x7d\n      ?source ?p ?target.\n      FILTER(ISIRI(?target))\n      OPTIONAL parts elided\n    \x7d\n    GROUP BY ?source ?propLabel ?target ?targetLabel ?isHuman ?typeQID\n    LIMIT " ++
  toString sparqlResultLimit ++ "\n  "

/-- `getWikidataId` of lib/sparql.ts.  The first component is the call's
outcome (`Except` makes the absence of uncaught exceptions a provable fact,
not a typing accident); the second is the log of cache writes. -/
def getWikidataId (qidCache : String → Option String)
    (runQidQuery : String → Except String (List String))
    (name : String) : Except String (Option String) × List CacheWrite :=
  match qidCache name with
  | some cached => (.ok (if cached = "null" then none else some cached), [])
  | none =>
    match sanitizeEntityName name with
    | .error _ => (.ok none, [])
    | .ok sanitizedName =>
      match runQidQuery (qidQuery sanitizedName) with
      | .ok values =>
        match values with
        | [] => (.ok none, [CacheWrite.qid name "null"])
        | v :: _ =>
          let q := lastSegment v
          (.ok (some q), [CacheWrite.qid name q])
      | .error _ => (.ok none, [])

/-- Append a connection to its source's group if the source has a group
(`if (connectionsBySource[sourceId])`, empty arrays being truthy in JS). -/
def bySourceAppend (m : List (String × List ConnectionData)) (k : String)
    (c : ConnectionData) : List (String × List ConnectionData) :=
  m.map (fun p => if p.1 = k then (p.1, p.2 ++ [c]) else p)

/-- Initialise `connectionsBySource` with an empty group per uncached QID
(JS object keys: a repeated QID keeps its first position). -/
def bySourceInit (qs : List String) : List (String × List ConnectionData) :=
  qs.foldl (fun m q => if m.any (fun p => p.1 = q) then m else m ++ [(q, [])]) []

/-- The binding-processing loop of `fetchBatchConnections`. -/
def processBindings (bySource : List (String × List ConnectionData))
    (acc : List ConnectionData) :
    List SparqlBinding → List ConnectionData × List (String × List ConnectionData)
  | [] => (acc, bySource)
  | b :: rest =>
    let targetId := lastSegment b.target
    if !isValidQid targetId then processBindings bySource acc rest
    else
      let sourceId := lastSegment b.source
      let typeQid := b.typeQID.getD ""
      let isHuman := b.isHuman = some "true"
      let conn : ConnectionData :=
        { source := sourceId
          target := targetId
          target_label := orDefault b.targetLabel targetId
          label := orDefault b.propLabel "link"
          image := orNone b.image
          group := if isHuman then "person" else determineGroup typeQid
          type_label := orDefault b.typeLabel "Concept" }
      processBindings (bySourceAppend bySource sourceId conn) (acc ++ [conn]) rest

/-- `fetchBatchConnections` of lib/sparql.ts.  Returns the call's outcome, the
cache-write log, and the list of network queries issued. -/
def fetchBatchConnections (connCache : String → Option (List ConnectionData))
    (runBatchQuery : String → Except String (List SparqlBinding))
    (qids : List String) :
    Except String (List ConnectionData) × List CacheWrite × List String :=
  if qids.isEmpty then (.ok [], [], [])
  else
    let uncachedQids := qids.filter (fun q => (connCache q).isNone)
    let cachedConnections := (qids.filterMap connCache).flatten
    if uncachedQids.isEmpty then (.ok cachedConnections, [], [])
    else
      let valuesStr := String.intercalate " " (uncachedQids.map (fun q => "wd:" ++ q))
      let query := batchQuery valuesStr
      match runBatchQuery query with
      | .error _ => (.ok cachedConnections, [], [query])
      | .ok bindings =>
        let processed := processBindings (bySourceInit uncachedQids) [] bindings
        (.ok (cachedConnections ++ processed.1),
         processed.2.map (fun p => CacheWrite.conns p.1 p.2),
         [query])

/-! ### Ephemeral response cache (frontend/src/api.ts)

`Date.now()` is passed explicitly; the producer (`fetcher`) is an injected
capability that performs all network activity, so "zero additional network
calls" is expressed as the producer-invocation count being zero.  The third
result component counts producer invocations. -/

/-- `CACHE_TTL` of api.ts: 10 minutes in milliseconds. -/
def CACHE_TTL : Nat := 10 * 60 * 1000

/-- `CachedResponse` of types.ts. -/
structure CachedResponse (T : Type) where
  data : T
  timestamp : Nat
  deriving Repr, DecidableEq

/-- The in-memory `responseCache` `Map`. -/
abbrev ResponseCache (T : Type) := List (String × CachedResponse T)

/-- `responseCache.get(key)`. -/
def cacheLookup {T : Type} (cache : ResponseCache T) (key : String) :
    Option (CachedResponse T) :=
  (cache.find? (fun p => p.1 = key)).map Prod.snd

/-- `responseCache.set(key, v)`: a JS `Map` updates in place and appends new
keys. -/
def cacheSet {T : Type} : ResponseCache T → String → CachedResponse T →
    ResponseCache T
  | [], k, v => [(k, v)]
  | (k', v') :: rest, k, v =>
    if k' = k then (k, v) :: rest else (k', v') :: cacheSet rest k v

/-- `isCacheValid` of api.ts: entry exists and
`Date.now() - cached.timestamp < CACHE_TTL` (truncated subtraction matches JS
for a monotone clock; a future timestamp is valid in both). -/
def isCacheValid {T : Type} (now : Nat) (cached : Option (CachedResponse T)) :
    Bool :=
  match cached with
  | none => false
  | some c => now - c.timestamp < CACHE_TTL

/-- The fetch-and-store tail of `cachedFetch` (a producer exception
propagates and nothing is stored). -/
def runFetcher {T : Type} (cache : ResponseCache T) (now : Nat) (key : String)
    (fetcher : Unit → Except String T) :
    Except String T × ResponseCache T × Nat :=
  match fetcher () with
  | .error e => (.error e, cache, 1)
  | .ok d => (.ok d, cacheSet cache key ⟨d, now⟩, 1)

/-- `cachedFetch` of api.ts. -/
def cachedFetch {T : Type} (cache : ResponseCache T) (now : Nat) (key : String)
    (fetcher : Unit → Except String T) (skipCache : Bool) :
    Except String T × ResponseCache T × Nat :=
  if skipCache then runFetcher cache now key fetcher
  else
    match cacheLookup cache key with
    | some c =>
      if now - c.timestamp < CACHE_TTL then (.ok c.data, cache, 0)
      else runFetcher cache now key fetcher
    | none => runFetcher cache now key fetcher

/-- `GenerateMapRequest` of types.ts. -/
structure GenerateMapRequest where
  names : Option (List String)
  qids : Option (List String)
  depth : Int
  deriving Repr, DecidableEq

/-- JSON string literal (escaping backslash and double quote; the request
strings of the claims need no further escapes). -/
def jsonString (s : String) : String :=
  ⟨dquote :: s.data.foldr
      (fun c acc =>
        (if c = dquote then [bslash, dquote]
         else if c = bslash then [bslash, bslash]
         else [c]) ++ acc) [dquote]⟩

/-- JSON array of strings. -/
def jsonStringList (l : List String) : String :=
  "[" ++ String.intercalate "," (l.map jsonString) ++ "]"

/-- `JSON.stringify(request)` for the cache key: fields in declaration order,
`undefined` fields omitted. -/
def serializeRequest (r : GenerateMapRequest) : String :=
  let body :=
    (match r.names with
     | some ns => "\x22names\x22:" ++ jsonStringList ns ++ ","
     | none => "") ++
    (match r.qids with
     | some qs => "\x22qids\x22:" ++ jsonStringList qs ++ ","
     | none => "") ++
    "\x22depth\x22:" ++ toString r.depth
  "\x7b" ++ body ++ "\x7d"

/-- `generateMap` of api.ts, with the graph producer injected (it performs
all the network traffic of a crawl). -/
def generateMap {R : Type} (cache : ResponseCache R) (now : Nat)
    (request : GenerateMapRequest) (producer : Unit → Except String R)
    (skipCache : Bool) : Except String R × ResponseCache R × Nat :=
  cachedFetch cache now ("generate-" ++ serializeRequest request) producer
    skipCache

/-! ### Edge classifier (lib/edgeCategories.ts) -/

/-- ASCII `toLowerCase` on one character. -/
def asciiLower (c : Char) : Char :=
  if 'A' ≤ c && c ≤ 'Z' then Char.ofNat (c.toNat + 32) else c

/-- JS `label.toLowerCase()` (ASCII range; the table keys are ASCII). -/
def toLowerStr (s : String) : String :=
  ⟨s.data.map asciiLower⟩

/-- `EDGE_CATEGORY_MAP` of lib/edgeCategories.ts. -/
def EDGE_CATEGORY_MAP : List (String × String) :=
  [("spouse", "family"), ("father", "family"), ("mother", "family"),
   ("child", "family"), ("sibling", "family"), ("relative", "family"),
   ("partner", "family"), ("married name", "family"), ("family name", "family"),
   ("family", "family"), ("stepfather", "family"), ("stepmother", "family"),
   ("educated at", "education"), ("alma mater", "education"),
   ("student of", "education"), ("doctoral advisor", "education"),
   ("doctoral student", "education"), ("academic degree", "education"),
   ("student", "education"),
   ("employer", "career"), ("occupation", "career"), ("position held", "career"),
   ("notable work", "career"), ("field of work", "career"),
   ("award received", "career"), ("nominated for", "career"),
   ("military rank", "career"), ("profession", "career"),
   ("work period (start)", "career"), ("work period (end)", "career"),
   ("country", "geographic"), ("country of citizenship", "geographic"),
   ("place of birth", "geographic"), ("place of death", "geographic"),
   ("place of burial", "geographic"), ("residence", "geographic"),
   ("headquarters location", "geographic"), ("located in", "geographic"),
   ("location", "geographic"), ("capital", "geographic"),
   ("continent", "geographic"),
   ("located in the administrative territorial entity", "geographic"),
   ("territory claimed by", "geographic"), ("capital of", "geographic"),
   ("country of origin", "geographic"), ("shares border with", "geographic"),
   ("located on terrain feature", "geographic"),
   ("member of", "membership"), ("member of political party", "membership"),
   ("member of sports team", "membership"), ("part of", "membership"),
   ("has part", "membership"), ("facet of", "membership"),
   ("subclass of", "membership"), ("instance of", "membership"),
   ("affiliation", "membership"), ("religious order", "membership"),
   ("religion or worldview", "membership"), ("political party", "membership"),
   ("allegiance", "membership"),
   ("founded by", "career"), ("discoverer or inventor", "career"),
   ("developer", "career"), ("creator", "career"), ("author", "career"),
   ("director", "career")]

/-- `categorizeEdge` of lib/edgeCategories.ts. -/
def categorizeEdge (label : String) : String :=
  let lower := trimStr (toLowerStr label)
  ((EDGE_CATEGORY_MAP.find? (fun p => p.1 = lower)).map Prod.snd).getD "other"

/-! ### Graph generator (lib/graphGenerator.ts)

`getWikidataId` and `fetchBatchConnections` are injected as oracles `resolve`
and `fetch` (both are proven above never to throw, and their results are
universally quantified here); `Math.random` is injected as the oracle `rand`
feeding the Fisher–Yates shuffle with `rand i % (i+1)` standing for
`Math.floor(Math.random() * (i+1))`.  Alongside the node/edge result the model
returns the list of batches passed to `fetch`, in call order, as the
observable needed by the fetched-at-most-once claims. -/

/-- `PLACEHOLDER_IMG` of lib/graphGenerator.ts. -/
def PLACEHOLDER_IMG : String :=
  "https://upload.wikimedia.org/wikipedia/commons/7/7c/Profile_avatar_placeholder_large.png"

/-- Node record, mirroring `GraphNode` of types.ts at the fields the
generator sets (`isInitialEntity` absent means `false`). -/
structure GraphNode where
  id : String
  label : String
  group : String
  shape : String
  image : String
  size : Nat
  title : String
  isInitialEntity : Bool := false
  deriving Repr, DecidableEq

/-- Per-depth limits, mirroring `DEPTH_CONFIG` entries. -/
structure DepthConfig where
  max_nodes_per_layer : Nat
  batch_size : Nat
  result_limit : Nat
  deriving Repr, DecidableEq

/-- `DEPTH_CONFIG` of lib/graphGenerator.ts. -/
def DEPTH_CONFIG : List (Nat × DepthConfig) :=
  [(1, ⟨50, 50, 3000⟩), (2, ⟨40, 45, 2800⟩), (3, ⟨30, 40, 2500⟩),
   (4, ⟨25, 35, 2200⟩), (5, ⟨20, 30, 2000⟩), (6, ⟨15, 25, 1800⟩),
   (7, ⟨12, 20, 1500⟩), (8, ⟨10, 15, 1200⟩), (9, ⟨8, 12, 1000⟩),
   (10, ⟨5, 10, 800⟩)]

/-- `getDepthConfig`: `DEPTH_CONFIG[depth] || DEPTH_CONFIG[3]`. -/
def getDepthConfig (depth : Nat) : DepthConfig :=
  ((DEPTH_CONFIG.find? (fun p => p.1 = depth)).map Prod.snd).getD ⟨30, 40, 2500⟩

/-- Swap two positions of a list (both in bounds whenever used). -/
def swapList {α : Type} (l : List α) (i j : Nat) : List α :=
  match l[i]?, l[j]? with
  | some a, some b => (l.set i b).set j a
  | _, _ => l

/-- The Fisher–Yates loop of `shuffleArray`, indices descending from
`a.length - 1` to `1`. -/
def fisherAux {α : Type} (rand : Nat → Nat) : List α → Nat → List α
  | a, 0 => a
  | a, Nat.succ k =>
    fisherAux rand (swapList a (k + 1) (rand (k + 1) % (k + 2))) k

/-- `shuffleArray` of lib/graphGenerator.ts. -/
def shuffleArray {α : Type} (rand : Nat → Nat) (arr : List α) : List α :=
  fisherAux rand arr (arr.length - 1)

/-- Crawl state: the `nodes` record (insertion-ordered), the edge list and
the three `Set`s of generateGraph. -/
structure GenState where
  nodes : List (String × GraphNode)
  edges : List GraphEdge
  processedIds : List String
  initialEntityIds : List String
  edgeIds : List String
  deriving Repr, DecidableEq

/-- `nodes[qid] = node` on the JS record: update in place or append. -/
def nodesSet : List (String × GraphNode) → String → GraphNode →
    List (String × GraphNode)
  | [], k, v => [(k, v)]
  | (k', v') :: rest, k, v =>
    if k' = k then (k, v) :: rest else (k', v') :: nodesSet rest k v

/-- `nodes[qid].label = name`. -/
def nodesSetLabel (m : List (String × GraphNode)) (k name : String) :
    List (String × GraphNode) :=
  m.map (fun p => if p.1 = k then (p.1, { p.2 with label := name }) else p)

/-- `qid in nodes`. -/
def hasNodeKey (m : List (String × GraphNode)) (k : String) : Bool :=
  m.any (fun p => p.1 = k)

/-- `Set.add`. -/
def addToSet (s : List String) (x : String) : List String :=
  if s.contains x then s else s ++ [x]

/-- Add a whole list to a `Set` (the `for (const id of toProcess)
processedIds.add(id)` loop). -/
def addAllToSet (s : List String) (l : List String) : List String :=
  l.foldl addToSet s

/-- Placeholder node for a provided QID. -/
def seedQidNode (qid : String) : GraphNode :=
  { id := qid, label := qid, group := "concept", shape := "dot",
    image := PLACEHOLDER_IMG, size := 40, title := "Loading...",
    isInitialEntity := true }

/-- Seed node created for a resolved name. -/
def seedNameNode (qid name : String) : GraphNode :=
  { id := qid, label := name, group := "concept", shape := "dot",
    image := PLACEHOLDER_IMG, size := 40,
    title := "Type: Initial Search Entity", isInitialEntity := true }

/-- Node created for a newly discovered connection target. -/
def connNode (conn : ConnectionData) : GraphNode :=
  let grp := conn.group
  { id := conn.target
    label := conn.target_label
    group := grp
    shape := if grp = "person" then "circularImage" else "dot"
    image := orDefault conn.image PLACEHOLDER_IMG
    size := if grp = "person" then 30
            else if grp = "country" then 22
            else if grp = "city" then 18 else 15
    title := "Type: " ++ conn.type_label }

/-- The `for (const qid of qids)` seeding loop body. -/
def seedQidStep (acc : GenState × List String) (qid : String) :
    GenState × List String :=
  let (st, layer) := acc
  ({ st with
      initialEntityIds := addToSet st.initialEntityIds qid
      nodes := nodesSet st.nodes qid (seedQidNode qid) },
   layer ++ [qid])

/-- The `for (const name of names)` resolution loop body. -/
def seedNameStep (resolve : String → Option String)
    (acc : GenState × List String) (name : String) : GenState × List String :=
  let (st, layer) := acc
  match resolve name with
  | none => (st, layer)
  | some qid =>
    if hasNodeKey st.nodes qid then
      ({ st with nodes := nodesSetLabel st.nodes qid name }, layer)
    else
      ({ st with
          initialEntityIds := addToSet st.initialEntityIds qid
          nodes := nodesSet st.nodes qid (seedNameNode qid name) },
       layer ++ [qid])

/-- The batching loop `for (let i = 0; i < toProcess.length; i += bs)` as the
list of consecutive slices; the fuel equals the list length, sufficient for
every positive batch size. -/
def chunksAux {α : Type} (bs : Nat) : Nat → List α → List (List α)
  | 0, _ => []
  | _, [] => []
  | fuel + 1, l => l.take bs :: chunksAux bs fuel (l.drop bs)

/-- Partition into consecutive batches of size `bs`. -/
def chunks {α : Type} (bs : Nat) (l : List α) : List (List α) :=
  chunksAux bs l.length l

/-- Processing of one fetched connection: create the target node if its id is
new, then append the edge if its derived id is unseen. -/
def processConn (acc : GenState × List String) (conn : ConnectionData) :
    GenState × List String :=
  let (st, next) := acc
  let tgt := conn.target
  let (st, next) :=
    if hasNodeKey st.nodes tgt then (st, next)
    else ({ st with nodes := nodesSet st.nodes tgt (connNode conn) },
          next ++ [tgt])
  let edgeId := conn.source ++ "-" ++ tgt ++ "-" ++ conn.label
  if st.edgeIds.contains edgeId then (st, next)
  else
    ({ st with
        edgeIds := st.edgeIds ++ [edgeId]
        edges := st.edges ++
          [{ id := edgeId, from_ := conn.source, to_ := tgt,
             label := conn.label, arrows := "to",
             category := some (categorizeEdge conn.label) }] },
     next)

/-- The `for (const conn of allNewConnections)` loop. -/
def processConns (acc : GenState × List String) :
    List ConnectionData → GenState × List String
  | [] => acc
  | c :: rest => processConns (processConn acc c) rest

/-- The depth loop of generateGraph, iterating over the zero-based depth
indices; returns the final state and the batch log. -/
def genLoop (fetch : List String → List ConnectionData) (rand : Nat → Nat) :
    List Nat → GenState → List String → List (List String) →
    GenState × List (List String)
  | [], st, _, log => (st, log)
  | d :: ds, st, currentLayer, log =>
    if currentLayer.isEmpty then (st, log)
    else
      let cfg := getDepthConfig (d + 1)
      let toProcess0 := currentLayer.filter
        (fun id => !st.processedIds.contains id)
      let toProcess :=
        if toProcess0.length > cfg.max_nodes_per_layer then
          (shuffleArray rand toProcess0).take cfg.max_nodes_per_layer
        else toProcess0
      if toProcess.isEmpty then (st, log)
      else
        let batches := chunks cfg.batch_size toProcess
        let allNew := (batches.map fetch).flatten
        let pr := processConns (st, []) allNew
        let st2 := { pr.1 with
          processedIds := addAllToSet pr.1.processedIds toProcess }
        genLoop fetch rand ds st2 pr.2 (log ++ batches)

/-- `generateGraph` of lib/graphGenerator.ts.  On success returns the node
list (`Object.values(nodes)`), the edge list, and the batch log. -/
def generateGraph (resolve : String → Option String)
    (fetch : List String → List ConnectionData) (rand : Nat → Nat)
    (request : GenerateMapRequest) :
    Except String (List GraphNode × List GraphEdge × List (List String)) :=
  match (match request.names with
         | some ns => validateEntityList ns 10
         | none => .ok []) with
  | .error e => .error e
  | .ok names =>
    match (match request.qids with
           | some qs => validateEntityList qs 10
           | none => .ok []) with
    | .error e => .error e
    | .ok rawQids =>
      match validateDepth request.depth with
      | .error e => .error e
      | .ok depth =>
        if names.isEmpty && rawQids.isEmpty then
          .error "Must provide either names or qids"
        else
          match rawQids.mapM sanitizeQid with
          | .error e => .error e
          | .ok qids =>
            let st0 : GenState := ⟨[], [], [], [], []⟩
            let seeded1 := qids.foldl seedQidStep (st0, [])
            let seeded2 := names.foldl (seedNameStep resolve) seeded1
            if seeded2.2.isEmpty then .error "Could not resolve any entities"
            else
              let result := genLoop fetch rand (List.range depth)
                seeded2.1 seeded2.2 []
              .ok (result.1.nodes.map Prod.snd, result.1.edges, result.2)

/-- Keys of the node record. -/
def keysN (m : List (String × GraphNode)) : List String := m.map Prod.fst

/-- Record lookup. -/
def lookupNode (m : List (String × GraphNode)) (k : String) : Option GraphNode :=
  (m.find? (fun p => p.1 = k)).map Prod.snd

/-- The derived edge id `` `${src}-${tgt}-${label}` `` of a connection. -/
def mkConnEdgeId (c : ConnectionData) : String :=
  c.source ++ "-" ++ c.target ++ "-" ++ c.label

/-- What one seeding step (for either a provided QID or a resolved name)
preserves or establishes. -/
def SeedSpec (acc r : GenState × List String) : Prop :=
  r.1.processedIds = acc.1.processedIds ∧
  r.1.edges = acc.1.edges ∧
  r.1.edgeIds = acc.1.edgeIds ∧
  (∀ x ∈ keysN acc.1.nodes, x ∈ keysN r.1.nodes) ∧
  ((∀ x ∈ acc.2, x ∈ keysN acc.1.nodes) → (∀ x ∈ r.2, x ∈ keysN r.1.nodes)) ∧
  ((keysN acc.1.nodes).Nodup → (keysN r.1.nodes).Nodup) ∧
  ((∀ p ∈ acc.1.nodes, p.2.id = p.1) → (∀ p ∈ r.1.nodes, p.2.id = p.1))

/-- Invariant of the edge structures: the `edgeIds` set mirrors the ids of
the edge list, ids are unique, and every id is the derived
`source-target-label` string of its own edge. -/
def EdgeInv (st : GenState) : Prop :=
  st.edgeIds = st.edges.map (fun e => e.id) ∧
  st.edgeIds.Nodup ∧
  ∀ e ∈ st.edges, e.id = e.from_ ++ "-" ++ e.to_ ++ "-" ++ e.label

/-- A connection row used by the concrete crawl runs below. -/
def dupConn : ConnectionData :=
  { source := "Q1", target := "Q2", target_label := "Ada", label := "knows",
    image := none, group := "person", type_label := "Human" }

/-- A fetch oracle returning the same connection twice for the batch
`["Q1"]`. -/
def fetchDup : List String → List ConnectionData :=
  fun b => if b = ["Q1"] then [dupConn, dupConn] else []

/-- The seed node of the concrete crawl runs below. -/
def dupSeedNode : GraphNode :=
  { id := "Q1", label := "Q1", group := "concept", shape := "dot",
    image := PLACEHOLDER_IMG, size := 40, title := "Loading...",
    isInitialEntity := true }

/-- The discovered node of the concrete crawl runs below. -/
def dupTargetNode : GraphNode :=
  { id := "Q2", label := "Ada", group := "person", shape := "circularImage",
    image := PLACEHOLDER_IMG, size := 30, title := "Type: Human",
    isInitialEntity := false }

/-- The single edge produced by the duplicate-triple run. -/
def dupEdge : GraphEdge :=
  { id := "Q1-Q2-knows", from_ := "Q1", to_ := "Q2", label := "knows",
    arrows := "to", category := some "other" }

/-- The connection rediscovering `Q2` with a different display label. -/
def connY : ConnectionData :=
  { source := "Q1", target := "Q2", target_label := "Y", label := "likes",
    image := none, group := "person", type_label := "Human" }

/-- The connection first discovering `Q2` with label `X`. -/
def connX : ConnectionData :=
  { source := "Q1", target := "Q2", target_label := "X", label := "knows",
    image := none, group := "person", type_label := "Human" }

/-- Fetch oracle discovering `Q2` twice with different display labels. -/
def fetchXY : List String → List ConnectionData :=
  fun b => if b = ["Q1"] then [connX, connY] else []

/-! ### Shortest path (frontend/src/lib/shortestPath.ts)

`findShortestPath` is a queue BFS over the undirected adjacency structure
built from the edge list.  The JS `while` loops become fueled recursion; the
fuel bounds chosen (`adj.length + 1` dequeue steps, `par.length + 1` parent
hops) are proven sufficient where the claims need it. -/

/-- `PathResult` of shortestPath.ts. -/
structure PathResult where
  nodeIds : List String
  edgeIds : List String
  deriving Repr, DecidableEq

/-- One adjacency entry `{neighbor, edgeId}`. -/
structure Adjacent where
  neighbor : String
  edgeId : String
  deriving Repr, DecidableEq

/-- The adjacency `Map`, insertion-ordered. -/
abbrev AdjList := List (String × List Adjacent)

/-- `adj.has(k)`. -/
def adjHas (m : AdjList) (k : String) : Bool :=
  m.any (fun p => p.1 = k)

/-- `adj.get(k)` with the `|| []` default. -/
def adjGet (m : AdjList) (k : String) : List Adjacent :=
  ((m.find? (fun p => p.1 = k)).map Prod.snd).getD []

/-- `if (!adj.has(k)) adj.set(k, [])`. -/
def adjEnsure (m : AdjList) (k : String) : AdjList :=
  if adjHas m k then m else m ++ [(k, [])]

/-- `adj.get(k)!.push(v)`. -/
def adjPush (m : AdjList) (k : String) (v : Adjacent) : AdjList :=
  m.map (fun p => if p.1 = k then (p.1, p.2 ++ [v]) else p)

/-- The body of the adjacency-building loop. -/
def addEdgeToAdj (m : AdjList) (e : GraphEdge) : AdjList :=
  adjPush (adjPush (adjEnsure (adjEnsure m e.from_) e.to_)
    e.from_ ⟨e.to_, e.id⟩) e.to_ ⟨e.from_, e.id⟩

/-- Build the undirected adjacency structure of `findShortestPath`. -/
def buildAdj (edges : List GraphEdge) : AdjList :=
  edges.foldl addEdgeToAdj []

/-- The `parent` map: child id to (parent node, connecting edge id). -/
abbrev ParentMap := List (String × String × String)

/-- `parent.get(k)` (also `parent.has(k)` via `isSome`). -/
def parGet (par : ParentMap) (k : String) : Option (String × String) :=
  (par.find? (fun q => q.1 = k)).map Prod.snd

/-- The path-reconstruction `while (parent.has(cur))` loop, fueled. -/
def reconstructAux (par : ParentMap) :
    Nat → String → List String → List String → List String × List String
  | 0, _, ns, es => (ns, es)
  | fuel + 1, cur, ns, es =>
    match parGet par cur with
    | none => (ns, es)
    | some (pn, pe) => reconstructAux par fuel pn (ns ++ [pn]) (es ++ [pe])

/-- Path reconstruction: walk parent pointers from `endId`, then reverse. -/
def reconstruct (par : ParentMap) (endId : String) : PathResult :=
  let r := reconstructAux par (par.length + 1) endId [endId] []
  ⟨r.1.reverse, r.2.reverse⟩

/-- BFS state: the `visited` set (in discovery order), the parent map, and
the queue. -/
structure BfsState where
  visited : List String
  par : ParentMap
  queue : List String
  deriving Repr, DecidableEq

/-- The `for (const {neighbor, edgeId} of neighbors)` loop: visit fresh
neighbors, record parents, return the instant `endId` is discovered,
otherwise enqueue. -/
def bfsProcess (endId current : String) :
    List Adjacent → BfsState → Option PathResult × BfsState
  | [], st => (none, st)
  | a :: rest, st =>
    if st.visited.contains a.neighbor then bfsProcess endId current rest st
    else
      let vis' := st.visited ++ [a.neighbor]
      let par' := st.par ++ [(a.neighbor, current, a.edgeId)]
      if a.neighbor = endId then
        (some (reconstruct par' endId), ⟨vis', par', st.queue⟩)
      else bfsProcess endId current rest ⟨vis', par', st.queue ++ [a.neighbor]⟩

/-- The `while (queue.length > 0)` loop, fueled. -/
def bfsLoop (adj : AdjList) (endId : String) :
    Nat → BfsState → Option PathResult
  | 0, _ => none
  | fuel + 1, st =>
    match st.queue with
    | [] => none
    | current :: rest =>
      match bfsProcess endId current (adjGet adj current)
          ⟨st.visited, st.par, rest⟩ with
      | (some r, _) => some r
      | (none, st') => bfsLoop adj endId fuel st'

/-- `findShortestPath` of shortestPath.ts. -/
def findShortestPath (edges : List GraphEdge) (startId endId : String) :
    Option PathResult :=
  if startId = endId then some ⟨[startId], []⟩
  else
    let adj := buildAdj edges
    if !(adjHas adj startId) || !(adjHas adj endId) then none
    else bfsLoop adj endId (adj.length + 1) ⟨[startId], [], [startId]⟩

/-- `findAllPairPaths` of shortestPath.ts: the nested `i < j` loops collect
the non-null pairwise results. -/
def pairPathsAux (edges : List GraphEdge) : List String → List PathResult
  | [] => []
  | x :: rest =>
    rest.filterMap (fun y => findShortestPath edges x y) ++ pairPathsAux edges rest

/-- `findAllPairPaths(edges, initialEntityIds)`. -/
def findAllPairPaths (edges : List GraphEdge) (initialEntityIds : List String) :
    List PathResult :=
  pairPathsAux edges initialEntityIds

/-- An edge joining `u` and `v` in either direction. -/
def edgeConnects (e : GraphEdge) (u v : String) : Bool :=
  (e.from_ = u && e.to_ = v) || (e.from_ = v && e.to_ = u)

/-- `u` and `v` adjacent in the undirected graph induced by the edge list. -/
def adjacentIn (edges : List GraphEdge) (u v : String) : Bool :=
  edges.any (fun e => edgeConnects e u v)

/-- A node sequence whose consecutive pairs are joined by edges. -/
def isWalk (edges : List GraphEdge) : List String → Bool
  | [] => false
  | [_] => true
  | u :: v :: rest => adjacentIn edges u v && isWalk edges (v :: rest)

/-- Node and edge-id sequences matching step by step: each consecutive node
pair is joined by an edge of the list whose id is the recorded one. -/
def validSteps (edges : List GraphEdge) : List String → List String → Bool
  | [_], [] => true
  | u :: v :: ns, e :: es =>
    edges.any (fun ed => ed.id = e && edgeConnects ed u v) &&
      validSteps edges (v :: ns) es
  | _, _ => false

/-- `x` occurs as an endpoint of some edge. -/
def occursIn (edges : List GraphEdge) (x : String) : Bool :=
  edges.any (fun e => e.from_ = x || e.to_ = x)

/-- An edge of the list with the given id joining `u` and `v`. -/
def EdgeMatch (edges : List GraphEdge) (eid u v : String) : Prop :=
  ∃ ed ∈ edges, ed.id = eid ∧ edgeConnects ed u v = true

/-- A parent-map chain from `s` to `v`, with node spine `ns` (from `s`) and
edge-id sequence `es`. -/
inductive PChain (edges : List GraphEdge) (par : ParentMap) (s : String) :
    String → List String → List String → Prop
  | zero : PChain edges par s s [s] []
  | succ : ∀ {u v e ns es}, PChain edges par s u ns es →
      parGet par v = some (u, e) → EdgeMatch edges e u v →
      PChain edges par s v (ns ++ [v]) (es ++ [e])

/-- Reachability from `s` in exactly `n` undirected steps. -/
inductive ReachN (edges : List GraphEdge) (s : String) : String → Nat → Prop
  | zero : ReachN edges s s 0
  | succ : ∀ {v w n}, ReachN edges s v n → adjacentIn edges v w = true →
      ReachN edges s w (n + 1)

/-- The BFS loop invariant between dequeue steps, with ghost level
function `lvl`. -/
structure BfsInv (edges : List GraphEdge) (adj : AdjList) (s : String)
    (st : BfsState) (lvl : String → Nat) : Prop where
  visNodup : st.visited.Nodup
  sVis : s ∈ st.visited
  lvlS : lvl s = 0
  sNoPar : parGet st.par s = none
  parVis : ∀ v u e, parGet st.par v = some (u, e) →
    v ∈ st.visited ∧ u ∈ st.visited
  parLvl : ∀ v u e, parGet st.par v = some (u, e) → lvl v = lvl u + 1
  chains : ∀ v ∈ st.visited,
    ∃ ns es, PChain edges st.par s v ns es ∧ es.length = lvl v
  queueVis : ∀ v ∈ st.queue, v ∈ st.visited
  queueNodup : st.queue.Nodup
  nbProc : ∀ u ∈ st.visited, u ∉ st.queue →
    ∀ a ∈ adjGet adj u, a.neighbor ∈ st.visited ∧ lvl a.neighbor ≤ lvl u + 1
  queueChain : List.Chain' (fun a b => lvl a ≤ lvl b) st.queue
  procLe : ∀ u ∈ st.visited, u ∉ st.queue → ∀ v ∈ st.queue, lvl u ≤ lvl v
  band : ∀ h t, st.queue = h :: t → ∀ v ∈ st.queue, lvl v ≤ lvl h + 1

/-- The invariant while the neighbor list of `current` is being processed;
`done` is the already-processed prefix of the neighbor list. -/
structure MidInv (edges : List GraphEdge) (adj : AdjList) (s current : String)
    (st : BfsState) (lvl : String → Nat) (done : List Adjacent) : Prop where
  visNodup : st.visited.Nodup
  sVis : s ∈ st.visited
  lvlS : lvl s = 0
  sNoPar : parGet st.par s = none
  parVis : ∀ v u e, parGet st.par v = some (u, e) →
    v ∈ st.visited ∧ u ∈ st.visited
  parLvl : ∀ v u e, parGet st.par v = some (u, e) → lvl v = lvl u + 1
  chains : ∀ v ∈ st.visited,
    ∃ ns es, PChain edges st.par s v ns es ∧ es.length = lvl v
  queueVis : ∀ v ∈ st.queue, v ∈ st.visited
  queueNodup : st.queue.Nodup
  curVis : current ∈ st.visited
  curNotQ : current ∉ st.queue
  nbDone : ∀ a ∈ done, a.neighbor ∈ st.visited ∧ lvl a.neighbor ≤ lvl current + 1
  nbProcOld : ∀ u ∈ st.visited, u ∉ st.queue → u ≠ current →
    ∀ a ∈ adjGet adj u, a.neighbor ∈ st.visited ∧ lvl a.neighbor ≤ lvl u + 1
  procLeCur : ∀ u ∈ st.visited, u ∉ st.queue → u ≠ current →
    lvl u ≤ lvl current
  queueChain : List.Chain' (fun a b => lvl a ≤ lvl b) st.queue
  queueLB : ∀ v ∈ st.queue, lvl current ≤ lvl v
  queueUB : ∀ v ∈ st.queue, lvl v ≤ lvl current + 1

/-- Concrete graph used to witness the shortest-path theorem:
a−b, b−c, a−c, c−d. -/
def c1edges : List GraphEdge :=
  [⟨"e1", "a", "b", "knows", "to", none⟩,
   ⟨"e2", "b", "c", "knows", "to", none⟩,
   ⟨"e3", "a", "c", "knows", "to", none⟩,
   ⟨"e4", "c", "d", "knows", "to", none⟩]

/-- Concrete graph used to witness the absent-endpoint theorem: a−b only. -/
def c4edges : List GraphEdge :=
  [⟨"e1", "a", "b", "knows", "to", none⟩]

theorem consUpdate_length (m : List (String × ConsolidatedEdge)) (k : String)
    (e : GraphEdge) : (consUpdate m k e).length ≤ m.length + 1 := by
  induction m with
  | nil => simp [consUpdate]
  | cons p rest ih =>
    obtain ⟨k', c⟩ := p
    by_cases h : k' = k <;> simp [consUpdate, h] <;> omega

theorem consUpdate_countSum (m : List (String × ConsolidatedEdge)) (k : String)
    (e : GraphEdge) : consCountSum (consUpdate m k e) = consCountSum m + 1 := by
  induction m with
  | nil => simp [consUpdate, consCountSum, consInit]
  | cons p rest ih =>
    obtain ⟨k', c⟩ := p
    by_cases h : k' = k
    · simp [consUpdate, h, consCountSum, consAddLabel]
      omega
    · simp [consUpdate, h, consCountSum] at ih ⊢
      omega

theorem consFold_length_countSum (l : List GraphEdge)
    (m : List (String × ConsolidatedEdge)) :
    (l.foldl (fun m e => consUpdate m (consKey e) e) m).length ≤ m.length + l.length ∧
    consCountSum (l.foldl (fun m e => consUpdate m (consKey e) e) m) =
      consCountSum m + l.length := by
  induction l generalizing m with
  | nil => simp
  | cons e rest ih =>
    have h1 := consUpdate_length m (consKey e) e
    have h2 := consUpdate_countSum m (consKey e) e
    have := ih (consUpdate m (consKey e) e)
    constructor
    · calc (rest.foldl (fun m e => consUpdate m (consKey e) e)
            (consUpdate m (consKey e) e)).length
          ≤ (consUpdate m (consKey e) e).length + rest.length := this.1
        _ ≤ m.length + 1 + rest.length := by omega
        _ = m.length + (e :: rest).length := by simp; omega
    · rw [List.foldl_cons, this.2, h2]
      simp
      omega

/-- **C8**: for every edge list, `consolidateEdges` returns at most as many
consolidated edges as there were input edges, and the `count` fields of the
consolidated edges sum to the length of the input list. -/
theorem c8_consolidate_length_and_count (edges : List GraphEdge) :
    (consolidateEdges edges).length ≤ edges.length ∧
    ((consolidateEdges edges).map (fun c => c.count)).sum = edges.length := by
  have h := consFold_length_countSum edges []
  constructor
  · simpa [consolidateEdges] using h.1
  · have : ((consolidateEdges edges).map (fun c => c.count)).sum =
        consCountSum (edges.foldl (fun m e => consUpdate m (consKey e) e) []) := by
      simp [consolidateEdges, consCountSum, List.map_map]
      rfl
    rw [this]
    simpa [consCountSum] using h.2

theorem consUpdate_keys (m : List (String × ConsolidatedEdge)) (k : String)
    (e : GraphEdge) :
    (consUpdate m k e).map Prod.fst =
      if k ∈ m.map Prod.fst then m.map Prod.fst else m.map Prod.fst ++ [k] := by
  induction m with
  | nil => simp [consUpdate]
  | cons p rest ih =>
    obtain ⟨k', c⟩ := p
    by_cases h : k' = k
    · simp [consUpdate, h]
    · simp only [consUpdate, if_neg h, List.map_cons, List.mem_cons]
      rw [ih]
      by_cases hk : k ∈ rest.map Prod.fst
      · simp [hk, Ne.symm h]
      · simp [hk, Ne.symm h]

theorem consUpdate_spec_mem (m : List (String × ConsolidatedEdge)) (k : String)
    (e : GraphEdge) (hnd : (m.map Prod.fst).Nodup)
    (q : String × ConsolidatedEdge) (hq : q ∈ consUpdate m k e) :
    (q.1 ≠ k ∧ q ∈ m) ∨
    (q.1 = k ∧ ((∃ c, (k, c) ∈ m ∧ q.2 = consAddLabel c e.label) ∨
                (k ∉ m.map Prod.fst ∧ q.2 = consInit e))) := by
  revert hq hnd
  induction m with
  | nil =>
    intro hnd hq
    simp [consUpdate] at hq
    subst hq
    simp
  | cons p rest ih =>
    intro hnd hq
    obtain ⟨k', c⟩ := p
    simp only [List.map_cons, List.nodup_cons] at hnd
    by_cases h : k' = k
    · subst h
      simp only [consUpdate, if_pos rfl, List.mem_cons, reduceIte] at hq
      rcases hq with hq | hq
      · subst hq
        right
        exact ⟨rfl, Or.inl ⟨c, by simp⟩⟩
      · by_cases hqk : q.1 = k'
        · exfalso
          apply hnd.1
          rw [← hqk]
          exact List.mem_map_of_mem Prod.fst hq
        · exact Or.inl ⟨hqk, List.mem_cons_of_mem _ hq⟩
    · simp only [consUpdate, if_neg h, List.mem_cons] at hq
      rcases hq with hq | hq
      · subst hq
        exact Or.inl ⟨h, List.mem_cons_self _ _⟩
      · rcases ih hnd.2 hq with ⟨h1, h2⟩ | ⟨h1, h2⟩
        · exact Or.inl ⟨h1, List.mem_cons_of_mem _ h2⟩
        · refine Or.inr ⟨h1, ?_⟩
          rcases h2 with ⟨c', hc', he⟩ | ⟨hk, he⟩
          · exact Or.inl ⟨c', List.mem_cons_of_mem _ hc', he⟩
          · refine Or.inr ⟨?_, he⟩
            simp only [List.map_cons, List.mem_cons]
            rintro (rfl | hmem)
            · exact h rfl
            · exact hk hmem

theorem intercalate_single (s x : String) : String.intercalate s [x] = x := by
  rfl

theorem consGroup_append_single (seen : List GraphEdge) (e : GraphEdge) (k : String) :
    consGroup (seen ++ [e]) k =
      consGroup seen k ++ (if consKey e = k then [e] else []) := by
  simp only [consGroup, List.filter_append]
  congr 1
  by_cases h : consKey e = k <;> simp [h]

theorem ConsInv_step (seen : List GraphEdge)
    (m : List (String × ConsolidatedEdge)) (e : GraphEdge)
    (h : ConsInv seen m) : ConsInv (seen ++ [e]) (consUpdate m (consKey e) e) := by
  obtain ⟨hnd, hprops, hcov⟩ := h
  have hkeys := consUpdate_keys m (consKey e) e
  refine ⟨?_, ?_, ?_⟩
  · rw [hkeys]
    by_cases hk : consKey e ∈ m.map Prod.fst
    · simpa [hk] using hnd
    · simp only [hk, if_false]
      simp [List.nodup_append, hnd, hk]
  · intro q hq
    rcases consUpdate_spec_mem m (consKey e) e hnd q hq with ⟨hne, hmem⟩ | ⟨hkey, hrest⟩
    · -- untouched entry: its group is unchanged
      have hold := hprops q hmem
      have hgrp : consGroup (seen ++ [e]) q.1 = consGroup seen q.1 := by
        rw [consGroup_append_single, if_neg (Ne.symm hne), List.append_nil]
      rw [hgrp]
      exact hold
    · rw [hkey]
      have hgrp : consGroup (seen ++ [e]) (consKey e) =
          consGroup seen (consKey e) ++ [e] := by
        rw [consGroup_append_single, if_pos rfl]
      rcases hrest with ⟨c, hc, hq2⟩ | ⟨hnotin, hq2⟩
      · have hold := hprops (consKey e, c) hc
        simp only at hold
        obtain ⟨hne', hlabels, hcount, hlab, hfields⟩ := hold
        rw [hgrp]
        refine ⟨by simp, ?_, ?_, ?_, ?_⟩
        · rw [hq2]
          simp [consAddLabel, hlabels]
        · rw [hq2]
          simp [consAddLabel, hcount]
        · rw [hq2]
          simp [consAddLabel]
        · intro e0 he0
          rw [List.head?_append_of_ne_nil _ hne'] at he0
          have := hfields e0 he0
          rw [hq2]
          simpa [consAddLabel] using this
      · -- fresh key: the old group must be empty
        have hempty : consGroup seen (consKey e) = [] := by
          by_contra hne'
          obtain ⟨e', he'⟩ := List.exists_mem_of_ne_nil _ hne'
          have := List.mem_filter.mp he'
          have hkeq : consKey e' = consKey e := by
            simpa using this.2
          have := hcov e' this.1
          rw [hkeq] at this
          exact hnotin this
        rw [hgrp, hempty, List.nil_append, hq2]
        refine ⟨by simp, by simp [consInit], by simp [consInit], ?_, ?_⟩
        · simp [consInit, intercalate_single]
        · intro e0 he0
          simp only [List.head?_cons, Option.some.injEq] at he0
          subst he0
          simp [consInit]
  · intro e' he'
    rw [hkeys]
    by_cases hk : consKey e ∈ m.map Prod.fst
    · simp only [hk, if_true]
      rcases List.mem_append.mp he' with h1 | h1
      · exact hcov e' h1
      · simp at h1
        subst h1
        exact hk
    · simp only [hk, if_false]
      rcases List.mem_append.mp he' with h1 | h1
      · exact List.mem_append_left _ (hcov e' h1)
      · simp at h1
        subst h1
        exact List.mem_append_right _ (by simp)

theorem ConsInv_fold (l : List GraphEdge) (seen : List GraphEdge)
    (m : List (String × ConsolidatedEdge)) (h : ConsInv seen m) :
    ConsInv (seen ++ l) (l.foldl (fun m e => consUpdate m (consKey e) e) m) := by
  induction l generalizing seen m with
  | nil => simpa using h
  | cons e rest ih =>
    have step := ConsInv_step seen m e h
    have := ih (seen ++ [e]) _ step
    simpa using this

theorem consolidateEdges_inv (l : List GraphEdge) :
    ConsInv l (l.foldl (fun m e => consUpdate m (consKey e) e) []) := by
  have h0 : ConsInv ([] : List GraphEdge) [] := by
    refine ⟨by simp, by simp, by simp⟩
  simpa using ConsInv_fold l [] [] h0

theorem consolidateEdges_char (l : List GraphEdge) (c : ConsolidatedEdge)
    (hc : c ∈ consolidateEdges l) :
    c.labels = (consGroup l (consKeyOf c)).map (fun e => e.label) ∧
    c.label = String.intercalate ", " c.labels ∧
    c.count = c.labels.length := by
  obtain ⟨hnd, hprops, hcov⟩ := consolidateEdges_inv l
  obtain ⟨p, hp, rfl⟩ := List.mem_map.mp hc
  obtain ⟨hne, hlabels, hcount, hlab, hfields⟩ := hprops p hp
  obtain ⟨e0, he0⟩ := List.exists_mem_of_ne_nil _ hne
  have hhead : (consGroup l p.1).head? = some ((consGroup l p.1).head hne) :=
    List.head?_eq_head _
  set e1 := (consGroup l p.1).head hne with he1
  have he1mem : e1 ∈ consGroup l p.1 := List.head_mem hne
  have hkeq : consKey e1 = p.1 := by
    have := List.mem_filter.mp he1mem
    simpa using this.2
  obtain ⟨hid, hfrom, hto⟩ := hfields e1 hhead
  have hkey : consKeyOf p.2 = p.1 := by
    rw [consKeyOf, hfrom, hto, ← hkeq, consKey]
  rw [hkey]
  refine ⟨hlabels, hlab, ?_⟩
  rw [hcount, hlabels, List.length_map]

theorem consolidateEdges_keysNodup (l : List GraphEdge) :
    ((consolidateEdges l).map consKeyOf).Nodup := by
  obtain ⟨hnd, hprops, hcov⟩ := consolidateEdges_inv l
  set m := l.foldl (fun m e => consUpdate m (consKey e) e) [] with hm
  have : (consolidateEdges l).map consKeyOf = m.map Prod.fst := by
    rw [consolidateEdges, ← hm, List.map_map]
    refine List.map_congr_left ?_
    intro p hp
    obtain ⟨hne, hlabels, hcount, hlab, hfields⟩ := hprops p hp
    have hhead : (consGroup l p.1).head? = some ((consGroup l p.1).head hne) :=
      List.head?_eq_head _
    have he1mem := List.head_mem hne
    have hkeq : consKey ((consGroup l p.1).head hne) = p.1 := by
      have := List.mem_filter.mp he1mem
      simpa using this.2
    obtain ⟨hid, hfrom, hto⟩ := hfields _ hhead
    simp only [Function.comp_apply]
    rw [consKeyOf, hfrom, hto]
    exact hkeq
  rw [this]
  exact hnd

theorem consolidateEdges_covers (l : List GraphEdge) (e : GraphEdge)
    (he : e ∈ l) : ∃ c ∈ consolidateEdges l, consKeyOf c = consKey e := by
  obtain ⟨hnd, hprops, hcov⟩ := consolidateEdges_inv l
  have hk := hcov e he
  obtain ⟨p, hp, hpk⟩ := List.mem_map.mp hk
  refine ⟨p.2, List.mem_map_of_mem Prod.snd hp, ?_⟩
  obtain ⟨hne, hlabels, hcount, hlab, hfields⟩ := hprops p hp
  have hhead : (consGroup l p.1).head? = some ((consGroup l p.1).head hne) :=
    List.head?_eq_head _
  have he1mem := List.head_mem hne
  have hkeq : consKey ((consGroup l p.1).head hne) = p.1 := by
    have := List.mem_filter.mp he1mem
    simpa using this.2
  obtain ⟨hid, hfrom, hto⟩ := hfields _ hhead
  rw [consKeyOf, hfrom, hto]
  exact hkeq.trans hpk

/-- **C9, counterexample**: grouping is by the hyphen-joined key string, not by
the pair `(from, to)`: two edges with *different* `from` (and `to`) fields
collapse into a single consolidated edge once their keys collide, refuting the
claimed "same group iff equal from ids and equal to ids". -/
theorem c9_counterexample :
    (consolidateEdges
        [{ id := "1", from_ := "a-b", to_ := "c", label := "x" },
         { id := "2", from_ := "a", to_ := "b-c", label := "y" }]).length = 1 ∧
    (consolidateEdges
        [{ id := "1", from_ := "a-b", to_ := "c", label := "x" },
         { id := "2", from_ := "a", to_ := "b-c", label := "y" }]).map
        (fun c => c.labels) = [["x", "y"]] ∧
    ({ id := "1", from_ := "a-b", to_ := "c", label := "x" } : GraphEdge).from_ ≠
      ({ id := "2", from_ := "a", to_ := "b-c", label := "y" } : GraphEdge).from_ := by
  refine ⟨by rfl, by rfl, by decide⟩

/-- **C9, amended**: `consolidateEdges` groups edges by the *string*
`from ++ "-" ++ to` (so equal `(from, to)` pairs always share a group, and
distinct pairs share a group exactly when their hyphen-joined keys collide,
e.g. when ids contain hyphens); each consolidated edge carries the labels of
its whole key-group in insertion order, its display label is those labels
joined with ", ", its count is the group size, and distinct consolidated
edges have distinct keys, while every input edge is represented by exactly
one consolidated edge with its key. -/
theorem c9_consolidate_groups_by_key (l : List GraphEdge) :
    (∀ c ∈ consolidateEdges l,
        c.labels = (consGroup l (consKeyOf c)).map (fun e => e.label) ∧
        c.label = String.intercalate ", " c.labels ∧
        c.count = c.labels.length) ∧
    ((consolidateEdges l).map consKeyOf).Nodup ∧
    (∀ e ∈ l, ∃ c ∈ consolidateEdges l, consKeyOf c = consKey e) :=
  ⟨fun c hc => consolidateEdges_char l c hc,
   consolidateEdges_keysNodup l,
   fun e he => consolidateEdges_covers l e he⟩

/-- Witness for `c9_consolidate_groups_by_key` at a concrete input. -/
theorem c9_witness :
    ∃ c ∈ consolidateEdges
        [{ id := "1", from_ := "a", to_ := "b", label := "x" },
         { id := "2", from_ := "a", to_ := "b", label := "y" }],
      consKeyOf c =
        consKey { id := "1", from_ := "a", to_ := "b", label := "x" } :=
  (c9_consolidate_groups_by_key _).2.2 _ (by decide)

/-- **C10**: `getWikidataId` never propagates an exception: its outcome is
always `ok`; sanitization fails exactly on names that are empty/whitespace-only
or longer than 200 characters after trimming, and on a cache miss such a name
— or a failing lookup query — yields `none` rather than an error. -/
theorem c10_getWikidataId_no_exception :
    (∀ (qidCache : String → Option String)
        (runQidQuery : String → Except String (List String)) (name : String),
        ∃ r, (getWikidataId qidCache runQidQuery name).1 = .ok r) ∧
    (∀ (name : String),
        (∃ msg, sanitizeEntityName name = .error msg) ↔
          ((trimStr name) = "" ∨ (trimStr name).length > 200)) ∧
    (∀ (qidCache : String → Option String)
        (runQidQuery : String → Except String (List String)) (name msg : String),
        qidCache name = none →
        sanitizeEntityName name = .error msg →
        getWikidataId qidCache runQidQuery name = (.ok none, [])) ∧
    (∀ (qidCache : String → Option String)
        (runQidQuery : String → Except String (List String)) (name s msg : String),
        qidCache name = none →
        sanitizeEntityName name = .ok s →
        runQidQuery (qidQuery s) = .error msg →
        getWikidataId qidCache runQidQuery name = (.ok none, [])) := by
  refine ⟨?_, ?_, ?_, ?_⟩
  · intro qidCache runQidQuery name
    cases hc : qidCache name with
    | some cached =>
      exact ⟨if cached = "null" then none else some cached,
        by simp [getWikidataId, hc]⟩
    | none =>
      cases hs : sanitizeEntityName name with
      | error m => exact ⟨none, by simp [getWikidataId, hc, hs]⟩
      | ok sanitized =>
        cases hq : runQidQuery (qidQuery sanitized) with
        | error m => exact ⟨none, by simp [getWikidataId, hc, hs, hq]⟩
        | ok values =>
          cases values with
          | nil => exact ⟨none, by simp [getWikidataId, hc, hs, hq]⟩
          | cons v rest =>
            exact ⟨some (lastSegment v), by simp [getWikidataId, hc, hs, hq]⟩
  · intro name
    by_cases h0 : name = ""
    · subst h0
      constructor
      · intro _
        left
        rfl
      · intro _
        exact ⟨"Entity name must be a non-empty string", by rfl⟩
    · by_cases h1 : trimStr name = ""
      · constructor
        · intro _
          exact Or.inl h1
        · intro _
          exact ⟨"Entity name cannot be empty or whitespace only",
            by unfold sanitizeEntityName; simp [h0, h1]⟩
      · by_cases h2 : (trimStr name).length > 200
        · constructor
          · intro _
            exact Or.inr h2
          · intro _
            exact ⟨"Entity name is too long (max 200 characters)",
              by unfold sanitizeEntityName; simp [h0, h1, h2]⟩
        · constructor
          · rintro ⟨msg, hmsg⟩
            unfold sanitizeEntityName at hmsg
            simp [h0, h1, h2] at hmsg
          · rintro (hh | hh)
            · exact absurd hh h1
            · exact absurd hh h2
  · intro qidCache runQidQuery name msg hc hs
    simp [getWikidataId, hc, hs]
  · intro qidCache runQidQuery name s msg hc hs hq
    simp [getWikidataId, hc, hs, hq]

/-- Witness for `c10_getWikidataId_no_exception` at a concrete uncached name
whose lookup query fails. -/
theorem c10_witness :
    getWikidataId (fun _ => none) (fun _ => Except.error "network down") "Ada" =
      (.ok none, []) :=
  c10_getWikidataId_no_exception.2.2.2 (fun _ => none)
    (fun _ => Except.error "network down") "Ada" "Ada" "network down"
    rfl (by simp [sanitizeEntityName, trimStr, isWs, escapeSparqlChar,
      bslash, dquote, squote, String.length]) rfl

/-- **C6**: `fetchBatchConnections` always resolves (no exception): when the
single batched query for the uncached identifiers fails it returns exactly the
cached connections of the cached identifiers, and when every identifier is
cached it returns the cached results without issuing any network query. -/
theorem c6_fetchBatch_degrades :
    (∀ (connCache : String → Option (List ConnectionData))
        (runBatchQuery : String → Except String (List SparqlBinding))
        (qids : List String),
        ∃ r, (fetchBatchConnections connCache runBatchQuery qids).1 = .ok r) ∧
    (∀ (connCache : String → Option (List ConnectionData))
        (runBatchQuery : String → Except String (List SparqlBinding))
        (qids : List String) (msg : String),
        qids.filter (fun q => (connCache q).isNone) ≠ [] →
        runBatchQuery (batchQuery (String.intercalate " "
            ((qids.filter (fun q => (connCache q).isNone)).map (fun q => "wd:" ++ q)))) =
          .error msg →
        fetchBatchConnections connCache runBatchQuery qids =
          (.ok ((qids.filterMap connCache).flatten), [],
            [batchQuery (String.intercalate " "
              ((qids.filter (fun q => (connCache q).isNone)).map (fun q => "wd:" ++ q)))])) ∧
    (∀ (connCache : String → Option (List ConnectionData))
        (runBatchQuery : String → Except String (List SparqlBinding))
        (qids : List String),
        (∀ q ∈ qids, (connCache q).isSome) →
        fetchBatchConnections connCache runBatchQuery qids =
          (.ok ((qids.filterMap connCache).flatten), [], [])) := by
  refine ⟨?_, ?_, ?_⟩
  · intro connCache runBatchQuery qids
    unfold fetchBatchConnections
    by_cases h0 : qids.isEmpty
    · simp [h0]
    · simp only [h0, if_false]
      by_cases h1 : (qids.filter (fun q => (connCache q).isNone)).isEmpty
      · simp [h1]
      · simp only [h1, if_false]
        cases hq : runBatchQuery (batchQuery (String.intercalate " "
            ((qids.filter (fun q => (connCache q).isNone)).map (fun q => "wd:" ++ q)))) with
        | ok bindings => exact ⟨_, rfl⟩
        | error _ => exact ⟨_, rfl⟩
  · intro connCache runBatchQuery qids msg hne hq
    have h0 : ¬ qids.isEmpty := by
      intro h
      rw [List.isEmpty_iff] at h
      subst h
      simp at hne
    have h1 : ¬ (qids.filter (fun q => (connCache q).isNone)).isEmpty := by
      rw [List.isEmpty_iff]
      exact hne
    simp only [fetchBatchConnections, h0, h1, if_false, Bool.false_eq_true, hq,
      List.isEmpty_iff]
  · intro connCache runBatchQuery qids hall
    have h1 : qids.filter (fun q => (connCache q).isNone) = [] := by
      rw [List.filter_eq_nil_iff]
      intro q hqmem
      have := hall q hqmem
      simp [Option.isNone_iff_eq_none]
      exact Option.isSome_iff_ne_none.mp this
    unfold fetchBatchConnections
    by_cases h0 : qids.isEmpty
    · rw [List.isEmpty_iff] at h0
      subst h0
      simp
    · simp only [h0, if_false, h1]
      simp

/-- Witness for `c6_fetchBatch_degrades`: a fully cached input issues no
query and returns the cached rows. -/
theorem c6_witness :
    fetchBatchConnections (fun _ => some []) (fun _ => Except.error "boom") ["Q1"] =
      (.ok [], [], []) := by
  have := c6_fetchBatch_degrades.2.2 (fun _ => some [])
    (fun _ => Except.error "boom") ["Q1"] (by intro q hq; rfl)
  simpa using this

theorem cacheLookup_set_self {T : Type} (cache : ResponseCache T)
    (key : String) (v : CachedResponse T) :
    cacheLookup (cacheSet cache key v) key = some v := by
  induction cache with
  | nil => simp [cacheSet, cacheLookup]
  | cons p rest ih =>
    obtain ⟨k', v'⟩ := p
    by_cases h : k' = key
    · simp [cacheSet, h, cacheLookup]
    · simp only [cacheSet, if_neg h]
      simp only [cacheLookup, List.find?_cons] at ih ⊢
      simp [h, ih]

/-- **C7**: `cachedFetch` returns a valid (younger than the 10-minute TTL)
cache entry without invoking the producer; otherwise it invokes the producer
once, stores the result with a fresh timestamp and returns it; consequently a
second `generateMap` call with the identical request within the TTL returns
the previously produced result with zero further producer invocations (hence
zero additional network calls) and leaves the cache unchanged. -/
theorem c7_cachedFetch_ttl :
    (∀ (T : Type) (cache : ResponseCache T) (now : Nat) (key : String)
        (fetcher : Unit → Except String T) (c : CachedResponse T),
        cacheLookup cache key = some c →
        now - c.timestamp < CACHE_TTL →
        cachedFetch cache now key fetcher false = (.ok c.data, cache, 0)) ∧
    (∀ (T : Type) (cache : ResponseCache T) (now : Nat) (key : String)
        (fetcher : Unit → Except String T) (skipCache : Bool) (d : T),
        (skipCache = true ∨ isCacheValid now (cacheLookup cache key) = false) →
        fetcher () = .ok d →
        cachedFetch cache now key fetcher skipCache =
          (.ok d, cacheSet cache key ⟨d, now⟩, 1)) ∧
    (∀ (R : Type) (cache : ResponseCache R) (t0 t1 : Nat)
        (request : GenerateMapRequest) (producer : Unit → Except String R)
        (d : R),
        cacheLookup cache ("generate-" ++ serializeRequest request) = none →
        producer () = .ok d →
        t1 - t0 < CACHE_TTL →
        generateMap cache t0 request producer false =
          (.ok d,
           cacheSet cache ("generate-" ++ serializeRequest request) ⟨d, t0⟩,
           1) ∧
        generateMap
            (cacheSet cache ("generate-" ++ serializeRequest request) ⟨d, t0⟩)
            t1 request producer false =
          (.ok d,
           cacheSet cache ("generate-" ++ serializeRequest request) ⟨d, t0⟩,
           0)) := by
  have hhit : ∀ (T : Type) (cache : ResponseCache T) (now : Nat) (key : String)
      (fetcher : Unit → Except String T) (c : CachedResponse T),
      cacheLookup cache key = some c →
      now - c.timestamp < CACHE_TTL →
      cachedFetch cache now key fetcher false = (.ok c.data, cache, 0) := by
    intro T cache now key fetcher c hc hvalid
    simp [cachedFetch, hc, hvalid]
  have hmiss : ∀ (T : Type) (cache : ResponseCache T) (now : Nat) (key : String)
      (fetcher : Unit → Except String T) (skipCache : Bool) (d : T),
      (skipCache = true ∨ isCacheValid now (cacheLookup cache key) = false) →
      fetcher () = .ok d →
      cachedFetch cache now key fetcher skipCache =
        (.ok d, cacheSet cache key ⟨d, now⟩, 1) := by
    intro T cache now key fetcher skipCache d hcase hf
    rcases hcase with hskip | hinvalid
    · subst hskip
      simp [cachedFetch, runFetcher, hf]
    · cases hskip : skipCache
      · cases hc : cacheLookup cache key with
        | none => simp [cachedFetch, hc, runFetcher, hf]
        | some c =>
          rw [hc] at hinvalid
          simp only [isCacheValid] at hinvalid
          have hge : ¬ (now - c.timestamp < CACHE_TTL) :=
            of_decide_eq_false hinvalid
          simp [cachedFetch, hc, runFetcher, hf, hge]
      · simp [cachedFetch, runFetcher, hf]
  refine ⟨hhit, hmiss, ?_⟩
  intro R cache t0 t1 request producer d hnone hprod httl
  constructor
  · exact hmiss R cache t0 _ producer false d
      (Or.inr (by simp [isCacheValid, hnone])) hprod
  · have hlook := cacheLookup_set_self cache
      ("generate-" ++ serializeRequest request) ⟨d, t0⟩
    exact hhit R _ t1 _ producer ⟨d, t0⟩ hlook httl

/-- Witness for `c7_cachedFetch_ttl`: a first miss caches, the second call
within the TTL hits with zero producer invocations. -/
theorem c7_witness :
    generateMap ([] : ResponseCache Nat) 0
        { names := none, qids := none, depth := 1 } (fun _ => .ok 42) false =
      (.ok 42,
       cacheSet [] ("generate-" ++
         serializeRequest { names := none, qids := none, depth := 1 })
         ⟨42, 0⟩, 1) ∧
    generateMap
        (cacheSet [] ("generate-" ++
          serializeRequest { names := none, qids := none, depth := 1 })
          ⟨42, 0⟩) 60000
        { names := none, qids := none, depth := 1 } (fun _ => .ok 42) false =
      (.ok 42,
       cacheSet [] ("generate-" ++
         serializeRequest { names := none, qids := none, depth := 1 })
         ⟨42, 0⟩, 0) :=
  c7_cachedFetch_ttl.2.2 Nat [] 0 60000
    { names := none, qids := none, depth := 1 } (fun _ => .ok 42) 42
    rfl rfl (by decide)

theorem set_perm_cons_eraseIdx {α : Type} (l : List α) (n : Nat) (a : α)
    (h : n < l.length) : (l.set n a).Perm (a :: l.eraseIdx n) := by
  rw [List.set_eq_take_cons_drop a h, List.eraseIdx_eq_take_drop_succ]
  exact List.perm_middle

theorem set_getElem_self {α : Type} (l : List α) (n : Nat) (h : n < l.length) :
    l.set n l[n] = l := by
  apply List.ext_getElem
  · simp
  · intro m h1 h2
    by_cases hm : n = m
    · subst hm
      simp
    · rw [List.getElem_set_ne hm]

theorem cons_getElem_eraseIdx_perm {α : Type} (l : List α) (n : Nat)
    (h : n < l.length) : (l[n] :: l.eraseIdx n).Perm l := by
  rw [List.eraseIdx_eq_take_drop_succ]
  refine (List.perm_middle).symm.trans ?_
  rw [← List.set_eq_take_cons_drop _ h, set_getElem_self]

theorem swap_zero_succ_perm {α : Type} (x : α) (xs : List α) (m : Nat) :
    (swapList (x :: xs) 0 (m + 1)).Perm (x :: xs) := by
  unfold swapList
  cases hm : xs[m]? with
  | none => simp [hm]
  | some b =>
    simp only [List.getElem?_cons_zero, List.getElem?_cons_succ, hm,
      List.set_cons_zero, List.set_cons_succ]
    obtain ⟨hmlt, hb⟩ := List.getElem?_eq_some.mp hm
    have p1 : (b :: xs.set m x : List α).Perm (b :: x :: xs.eraseIdx m) :=
      List.Perm.cons b (set_perm_cons_eraseIdx xs m x hmlt)
    have p2 : (b :: x :: xs.eraseIdx m : List α).Perm (x :: b :: xs.eraseIdx m) :=
      List.Perm.swap x b _
    have p3 : (x :: b :: xs.eraseIdx m : List α).Perm (x :: xs) := by
      refine List.Perm.cons x ?_
      rw [← hb]
      exact cons_getElem_eraseIdx_perm xs m hmlt
    exact (p1.trans p2).trans p3

theorem swapList_comm {α : Type} (l : List α) (i j : Nat) (hij : i ≠ j) :
    swapList l i j = swapList l j i := by
  unfold swapList
  cases h1 : l[i]? with
  | none => cases h2 : l[j]? <;> simp
  | some a =>
    cases h2 : l[j]? with
    | none => simp
    | some b => simp [List.set_comm b a l hij]

theorem swapList_cons_succ {α : Type} (x : α) (xs : List α) (k m : Nat) :
    swapList (x :: xs) (k + 1) (m + 1) = x :: swapList xs k m := by
  unfold swapList
  cases hk : xs[k]? with
  | none => simp [hk]
  | some a =>
    cases hm : xs[m]? with
    | none => simp [hk, hm]
    | some b => simp [hk, hm]

theorem swapList_perm {α : Type} (l : List α) (i j : Nat) :
    (swapList l i j).Perm l := by
  induction l generalizing i j with
  | nil =>
    unfold swapList
    simp
  | cons x xs ih =>
    cases i with
    | zero =>
      cases j with
      | zero =>
        unfold swapList
        cases h : (x :: xs)[0]? <;> simp_all
      | succ m => exact swap_zero_succ_perm x xs m
    | succ k =>
      cases j with
      | zero =>
        rw [swapList_comm _ _ _ (by omega)]
        exact swap_zero_succ_perm x xs k
      | succ m =>
        rw [swapList_cons_succ]
        exact List.Perm.cons x (ih k m)

theorem fisherAux_perm {α : Type} (rand : Nat → Nat) (l : List α) (k : Nat) :
    (fisherAux rand l k).Perm l := by
  induction k generalizing l with
  | zero => simp [fisherAux]
  | succ k ih =>
    unfold fisherAux
    exact (ih _).trans (swapList_perm l (k + 1) (rand (k + 1) % (k + 2)))

theorem shuffleArray_perm {α : Type} (rand : Nat → Nat) (l : List α) :
    (shuffleArray rand l).Perm l :=
  fisherAux_perm rand l (l.length - 1)

theorem chunksAux_subset {α : Type} (bs : Nat) (fuel : Nat) (l : List α)
    (b : List α) (hb : b ∈ chunksAux bs fuel l) : ∀ x ∈ b, x ∈ l := by
  induction fuel generalizing l with
  | zero => simp [chunksAux] at hb
  | succ fuel ih =>
    cases l with
    | nil => simp [chunksAux] at hb
    | cons y ys =>
      simp only [chunksAux, List.mem_cons] at hb
      rcases hb with rfl | hb
      · intro x hx
        exact List.mem_of_mem_take hx
      · intro x hx
        exact List.mem_of_mem_drop (ih _ hb x hx)

theorem chunks_subset {α : Type} (bs : Nat) (l : List α) (b : List α)
    (hb : b ∈ chunks bs l) : ∀ x ∈ b, x ∈ l :=
  chunksAux_subset bs l.length l b hb

theorem nodup_disjoint_take_drop {α : Type} (l : List α) (n : Nat)
    (hnd : l.Nodup) : ∀ x ∈ l.take n, x ∉ l.drop n := by
  have h := hnd
  rw [← List.take_append_drop n l, List.nodup_append] at h
  exact h.2.2

theorem chunksAux_pairwise {α : Type} (bs : Nat) (fuel : Nat)
    (l : List α) (hnd : l.Nodup) :
    List.Pairwise (fun b1 b2 => ∀ x ∈ b1, x ∉ b2) (chunksAux bs fuel l) := by
  induction fuel generalizing l with
  | zero => simp [chunksAux]
  | succ fuel ih =>
    cases l with
    | nil => simp [chunksAux]
    | cons y ys =>
      simp only [chunksAux]
      refine List.Pairwise.cons ?_ (ih _ (hnd.sublist (List.drop_sublist _ _)))
      intro b hb x hxtake hxb
      have hxdrop : x ∈ (y :: ys).drop bs := chunksAux_subset _ _ _ _ hb x hxb
      exact nodup_disjoint_take_drop (y :: ys) bs hnd x hxtake hxdrop

theorem chunks_pairwise {α : Type} (bs : Nat) (l : List α)
    (hnd : l.Nodup) :
    List.Pairwise (fun b1 b2 => ∀ x ∈ b1, x ∉ b2) (chunks bs l) :=
  chunksAux_pairwise bs l.length l hnd

theorem chunks_single {α : Type} (bs : Nat) (l : List α) (hne : l ≠ [])
    (hlen : l.length ≤ bs) : chunks bs l = [l] := by
  cases l with
  | nil => exact absurd rfl hne
  | cons y ys =>
    simp only [chunks, List.length_cons, chunksAux]
    rw [List.take_of_length_le (by simpa using hlen),
      List.drop_of_length_le (by simpa using hlen)]
    cases h : ys.length <;> simp [chunksAux]

theorem hasNodeKey_iff (m : List (String × GraphNode)) (k : String) :
    hasNodeKey m k = true ↔ k ∈ keysN m := by
  simp only [hasNodeKey, List.any_eq_true, keysN, List.mem_map]
  constructor
  · rintro ⟨p, hp, hpk⟩
    exact ⟨p, hp, by simpa using hpk⟩
  · rintro ⟨p, hp, hpk⟩
    exact ⟨p, hp, by simpa using hpk⟩

theorem nodesSet_keys (m : List (String × GraphNode)) (k : String)
    (v : GraphNode) :
    keysN (nodesSet m k v) =
      if k ∈ keysN m then keysN m else keysN m ++ [k] := by
  induction m with
  | nil => simp [nodesSet, keysN]
  | cons p rest ih =>
    obtain ⟨k', v'⟩ := p
    by_cases h : k' = k
    · simp [nodesSet, h, keysN]
    · simp only [nodesSet, if_neg h, keysN, List.map_cons] at ih ⊢
      rw [ih]
      by_cases hk : k ∈ rest.map Prod.fst
      · simp [hk, Ne.symm h]
      · simp [hk, Ne.symm h]

theorem nodesSet_keys_mono (m : List (String × GraphNode)) (k : String)
    (v : GraphNode) (x : String) (hx : x ∈ keysN m) :
    x ∈ keysN (nodesSet m k v) := by
  rw [nodesSet_keys]
  by_cases h : k ∈ keysN m <;> simp [h, hx]

theorem nodesSet_keys_self (m : List (String × GraphNode)) (k : String)
    (v : GraphNode) : k ∈ keysN (nodesSet m k v) := by
  rw [nodesSet_keys]
  by_cases h : k ∈ keysN m <;> simp [h]

theorem lookupNode_set_ne (m : List (String × GraphNode)) (k k' : String)
    (v : GraphNode) (h : k' ≠ k) :
    lookupNode (nodesSet m k v) k' = lookupNode m k' := by
  induction m with
  | nil => simp [nodesSet, lookupNode, Ne.symm h]
  | cons p rest ih =>
    obtain ⟨k0, v0⟩ := p
    by_cases h0 : k0 = k
    · subst h0
      simp only [nodesSet, if_pos rfl]
      simp [lookupNode, List.find?_cons, Ne.symm h]
    · simp only [nodesSet, if_neg h0]
      by_cases h1 : k0 = k'
      · subst h1
        simp [lookupNode, List.find?_cons]
      · simp only [lookupNode, List.find?_cons, decide_eq_false h1, Bool.false_eq_true,
          if_false] at ih ⊢
        simpa using ih

theorem nodesSet_id_inv (m : List (String × GraphNode)) (k : String)
    (v : GraphNode) (hm : ∀ p ∈ m, p.2.id = p.1) (hv : v.id = k) :
    ∀ p ∈ nodesSet m k v, p.2.id = p.1 := by
  induction m with
  | nil =>
    intro p hp
    simp [nodesSet] at hp
    subst hp
    exact hv
  | cons q rest ih =>
    obtain ⟨k0, v0⟩ := q
    by_cases h0 : k0 = k
    · intro p hp
      simp only [nodesSet, if_pos h0, List.mem_cons] at hp
      rcases hp with rfl | hp
      · exact hv
      · exact hm p (List.mem_cons_of_mem _ hp)
    · intro p hp
      simp only [nodesSet, if_neg h0, List.mem_cons] at hp
      rcases hp with rfl | hp
      · exact hm _ (List.mem_cons_self _ _)
      · exact ih (fun q hq => hm q (List.mem_cons_of_mem _ hq)) p hp

theorem nodesSet_nodupKeys (m : List (String × GraphNode)) (k : String)
    (v : GraphNode) (hnd : (keysN m).Nodup) :
    (keysN (nodesSet m k v)).Nodup := by
  rw [nodesSet_keys]
  by_cases h : k ∈ keysN m
  · simpa [h] using hnd
  · simp only [h, if_false]
    simp [List.nodup_append, hnd, h]

theorem mem_addToSet (s : List String) (y x : String) :
    x ∈ addToSet s y ↔ x ∈ s ∨ x = y := by
  unfold addToSet
  by_cases h : s.contains y
  · have hy : y ∈ s := by simpa using h
    simp only [if_pos h]
    constructor
    · exact Or.inl
    · rintro (hx | rfl)
      · exact hx
      · exact hy
  · have hy : y ∉ s := by simpa using h
    simp only [if_neg h]
    simp

theorem mem_addAllToSet (s : List String) (l : List String) (x : String) :
    x ∈ addAllToSet s l ↔ x ∈ s ∨ x ∈ l := by
  induction l generalizing s with
  | nil => simp [addAllToSet]
  | cons y rest ih =>
    simp only [addAllToSet, List.foldl_cons] at ih ⊢
    rw [ih (addToSet s y), mem_addToSet]
    constructor
    · rintro ((hx | rfl) | hx)
      · exact Or.inl hx
      · exact Or.inr (List.mem_cons_self _ _)
      · exact Or.inr (List.mem_cons_of_mem _ hx)
    · rintro (hx | hx)
      · exact Or.inl (Or.inl hx)
      · rcases List.mem_cons.mp hx with rfl | hx
        · exact Or.inl (Or.inr rfl)
        · exact Or.inr hx

/-- Everything `processConn` does to the state and the next-layer candidates
that the batching claims rely on. -/
theorem processConn_spec (st : GenState) (next : List String)
    (c : ConnectionData) :
    (processConn (st, next) c).1.processedIds = st.processedIds ∧
    (processConn (st, next) c).1.initialEntityIds = st.initialEntityIds ∧
    (∀ x ∈ keysN st.nodes, x ∈ keysN (processConn (st, next) c).1.nodes) ∧
    (∀ x ∈ (processConn (st, next) c).2,
      x ∈ next ∨ (x ∉ keysN st.nodes ∧ x ∈ keysN (processConn (st, next) c).1.nodes)) ∧
    (∀ x ∈ next, x ∈ (processConn (st, next) c).2) ∧
    ((∀ x ∈ next, x ∈ keysN st.nodes) →
      ∀ x ∈ (processConn (st, next) c).2,
        x ∈ keysN (processConn (st, next) c).1.nodes) ∧
    (next.Nodup → (∀ x ∈ next, x ∈ keysN st.nodes) →
      (processConn (st, next) c).2.Nodup) := by
  unfold processConn
  by_cases h1 : hasNodeKey st.nodes c.target
  · simp only [h1, if_true]
    by_cases h2 : st.edgeIds.contains (c.source ++ "-" ++ c.target ++ "-" ++ c.label)
    · simp only [h2, if_true]
      exact ⟨by trivial, by trivial, fun x hx => hx, fun x hx => Or.inl hx,
        fun x hx => hx, fun h x hx => h x hx, fun hnd _ => hnd⟩
    · simp only [h2, Bool.false_eq_true, if_false]
      exact ⟨by trivial, by trivial, fun x hx => hx, fun x hx => Or.inl hx,
        fun x hx => hx, fun h x hx => h x hx, fun hnd _ => hnd⟩
  · simp only [h1, Bool.false_eq_true, if_false]
    have hfresh : c.target ∉ keysN st.nodes := by
      intro hmem
      exact h1 ((hasNodeKey_iff st.nodes c.target).mpr hmem)
    by_cases h2 : st.edgeIds.contains (c.source ++ "-" ++ c.target ++ "-" ++ c.label)
    · simp only [h2, if_true]
      refine ⟨by trivial, by trivial, ?_, ?_, ?_, ?_, ?_⟩
      · intro x hx
        exact nodesSet_keys_mono _ _ _ _ hx
      · intro x hx
        rcases List.mem_append.mp hx with hx | hx
        · exact Or.inl hx
        · simp only [List.mem_singleton] at hx
          subst hx
          exact Or.inr ⟨hfresh, nodesSet_keys_self _ _ _⟩
      · intro x hx
        exact List.mem_append_left _ hx
      · intro h x hx
        rcases List.mem_append.mp hx with hx | hx
        · exact nodesSet_keys_mono _ _ _ _ (h x hx)
        · simp only [List.mem_singleton] at hx
          subst hx
          exact nodesSet_keys_self _ _ _
      · intro hnd hsub
        rw [List.nodup_append]
        refine ⟨hnd, List.nodup_singleton _, ?_⟩
        intro x hx
        simp only [List.mem_singleton]
        intro hcontra
        subst hcontra
        exact hfresh (hsub c.target hx)
    · simp only [h2, Bool.false_eq_true, if_false]
      refine ⟨by trivial, by trivial, ?_, ?_, ?_, ?_, ?_⟩
      · intro x hx
        exact nodesSet_keys_mono _ _ _ _ hx
      · intro x hx
        rcases List.mem_append.mp hx with hx | hx
        · exact Or.inl hx
        · simp only [List.mem_singleton] at hx
          subst hx
          exact Or.inr ⟨hfresh, nodesSet_keys_self _ _ _⟩
      · intro x hx
        exact List.mem_append_left _ hx
      · intro h x hx
        rcases List.mem_append.mp hx with hx | hx
        · exact nodesSet_keys_mono _ _ _ _ (h x hx)
        · simp only [List.mem_singleton] at hx
          subst hx
          exact nodesSet_keys_self _ _ _
      · intro hnd hsub
        rw [List.nodup_append]
        refine ⟨hnd, List.nodup_singleton _, ?_⟩
        intro x hx
        simp only [List.mem_singleton]
        intro hcontra
        subst hcontra
        exact hfresh (hsub c.target hx)

/-- `processConn_spec` lifted over a whole connection list. -/
theorem processConns_spec (conns : List ConnectionData) (st : GenState)
    (next : List String) :
    (processConns (st, next) conns).1.processedIds = st.processedIds ∧
    (processConns (st, next) conns).1.initialEntityIds = st.initialEntityIds ∧
    (∀ x ∈ keysN st.nodes, x ∈ keysN (processConns (st, next) conns).1.nodes) ∧
    (∀ x ∈ (processConns (st, next) conns).2,
      x ∈ next ∨ (x ∉ keysN st.nodes ∧
        x ∈ keysN (processConns (st, next) conns).1.nodes)) ∧
    (∀ x ∈ next, x ∈ (processConns (st, next) conns).2) ∧
    ((∀ x ∈ next, x ∈ keysN st.nodes) →
      ∀ x ∈ (processConns (st, next) conns).2,
        x ∈ keysN (processConns (st, next) conns).1.nodes) ∧
    (next.Nodup → (∀ x ∈ next, x ∈ keysN st.nodes) →
      (processConns (st, next) conns).2.Nodup) := by
  induction conns generalizing st next with
  | nil =>
    exact ⟨rfl, rfl, fun x hx => hx, fun x hx => Or.inl hx, fun x hx => hx,
      fun h x hx => h x hx, fun hnd _ => hnd⟩
  | cons c rest ih =>
    obtain ⟨p1, p2, p3, p4, p5, p6, p7⟩ := processConn_spec st next c
    have hone : processConns (st, next) (c :: rest) =
        processConns ((processConn (st, next) c).1, (processConn (st, next) c).2)
          rest := rfl
    obtain ⟨q1, q2, q3, q4, q5, q6, q7⟩ :=
      ih (processConn (st, next) c).1 (processConn (st, next) c).2
    rw [hone]
    refine ⟨q1.trans p1, q2.trans p2, ?_, ?_, ?_, ?_, ?_⟩
    · intro x hx
      exact q3 x (p3 x hx)
    · intro x hx
      rcases q4 x hx with hx1 | ⟨hx1, hx2⟩
      · rcases p4 x hx1 with hx2 | ⟨hx2, hx3⟩
        · exact Or.inl hx2
        · exact Or.inr ⟨hx2, q3 x hx3⟩
      · refine Or.inr ⟨?_, hx2⟩
        intro hcontra
        exact hx1 (p3 x hcontra)
    · intro x hx
      exact q5 x (p5 x hx)
    · intro hsub x hx
      exact q6 (p6 hsub) x hx
    · intro hnd hsub
      exact q7 (p7 hnd hsub) (p6 hsub)

theorem nodesSetLabel_keys (m : List (String × GraphNode)) (k n : String) :
    keysN (nodesSetLabel m k n) = keysN m := by
  simp only [nodesSetLabel, keysN, List.map_map]
  refine List.map_congr_left ?_
  intro p hp
  by_cases h : p.1 = k <;> simp [h]

theorem nodesSetLabel_id_inv (m : List (String × GraphNode)) (k n : String)
    (hm : ∀ p ∈ m, p.2.id = p.1) :
    ∀ p ∈ nodesSetLabel m k n, p.2.id = p.1 := by
  intro p hp
  obtain ⟨q, hq, rfl⟩ := List.mem_map.mp hp
  by_cases h : q.1 = k
  · rw [if_pos h]
    exact hm q hq
  · rw [if_neg h]
    exact hm q hq

theorem SeedSpec_refl (acc : GenState × List String) : SeedSpec acc acc :=
  ⟨rfl, rfl, rfl, fun _ hx => hx, fun h => h, fun h => h, fun h => h⟩

theorem SeedSpec_trans (a b c : GenState × List String)
    (h1 : SeedSpec a b) (h2 : SeedSpec b c) : SeedSpec a c := by
  obtain ⟨p1, p2, p3, p4, p5, p6, p7⟩ := h1
  obtain ⟨q1, q2, q3, q4, q5, q6, q7⟩ := h2
  exact ⟨q1.trans p1, q2.trans p2, q3.trans p3,
    fun x hx => q4 x (p4 x hx),
    fun h x hx => q5 (p5 h) x hx,
    fun h => q6 (p6 h),
    fun h => q7 (p7 h)⟩

theorem seedQidStep_spec (acc : GenState × List String) (qid : String) :
    SeedSpec acc (seedQidStep acc qid) := by
  refine ⟨rfl, rfl, rfl, ?_, ?_, ?_, ?_⟩
  · intro x hx
    exact nodesSet_keys_mono _ _ _ _ hx
  · intro h x hx
    rcases List.mem_append.mp hx with hx | hx
    · exact nodesSet_keys_mono _ _ _ _ (h x hx)
    · simp only [List.mem_singleton] at hx
      subst hx
      exact nodesSet_keys_self _ _ _
  · intro h
    exact nodesSet_nodupKeys _ _ _ h
  · intro h
    exact nodesSet_id_inv _ _ _ h rfl

theorem seedNameStep_spec (resolve : String → Option String)
    (acc : GenState × List String) (name : String) :
    SeedSpec acc (seedNameStep resolve acc name) := by
  unfold seedNameStep
  cases hres : resolve name with
  | none => exact SeedSpec_refl _
  | some qid =>
    by_cases hkey : hasNodeKey acc.1.nodes qid
    · simp only [hkey, if_true]
      refine ⟨rfl, rfl, rfl, ?_, ?_, ?_, ?_⟩
      · intro x hx
        rw [nodesSetLabel_keys]
        exact hx
      · intro h x hx
        rw [nodesSetLabel_keys]
        exact h x hx
      · intro h
        rw [nodesSetLabel_keys]
        exact h
      · intro h
        exact nodesSetLabel_id_inv _ _ _ h
    · simp only [hkey, Bool.false_eq_true, if_false]
      refine ⟨rfl, rfl, rfl, ?_, ?_, ?_, ?_⟩
      · intro x hx
        exact nodesSet_keys_mono _ _ _ _ hx
      · intro h x hx
        rcases List.mem_append.mp hx with hx | hx
        · exact nodesSet_keys_mono _ _ _ _ (h x hx)
        · simp only [List.mem_singleton] at hx
          subst hx
          exact nodesSet_keys_self _ _ _
      · intro h
        exact nodesSet_nodupKeys _ _ _ h
      · intro h
        exact nodesSet_id_inv _ _ _ h rfl

theorem seedQids_fold_spec (qids : List String) (acc : GenState × List String) :
    SeedSpec acc (qids.foldl seedQidStep acc) := by
  induction qids generalizing acc with
  | nil => exact SeedSpec_refl acc
  | cons q rest ih =>
    exact SeedSpec_trans _ _ _ (seedQidStep_spec acc q) (ih (seedQidStep acc q))

theorem seedNames_fold_spec (resolve : String → Option String)
    (names : List String) (acc : GenState × List String) :
    SeedSpec acc (names.foldl (seedNameStep resolve) acc) := by
  induction names generalizing acc with
  | nil => exact SeedSpec_refl acc
  | cons n rest ih =>
    exact SeedSpec_trans _ _ _ (seedNameStep_spec resolve acc n)
      (ih (seedNameStep resolve acc n))

theorem toProcess_facts (rand : Nat → Nat) (st : GenState)
    (layer : List String) (cfg : DepthConfig) :
    (∀ x ∈ (if (layer.filter (fun id => !st.processedIds.contains id)).length >
          cfg.max_nodes_per_layer then
        (shuffleArray rand (layer.filter
          (fun id => !st.processedIds.contains id))).take cfg.max_nodes_per_layer
      else layer.filter (fun id => !st.processedIds.contains id)),
      x ∈ layer ∧ x ∉ st.processedIds) ∧
    (layer.Nodup → (if (layer.filter (fun id => !st.processedIds.contains id)).length >
          cfg.max_nodes_per_layer then
        (shuffleArray rand (layer.filter
          (fun id => !st.processedIds.contains id))).take cfg.max_nodes_per_layer
      else layer.filter (fun id => !st.processedIds.contains id)).Nodup) ∧
    (if (layer.filter (fun id => !st.processedIds.contains id)).length >
          cfg.max_nodes_per_layer then
        (shuffleArray rand (layer.filter
          (fun id => !st.processedIds.contains id))).take cfg.max_nodes_per_layer
      else layer.filter (fun id => !st.processedIds.contains id)).length ≤
      cfg.max_nodes_per_layer := by
  have hmemfilter : ∀ x ∈ layer.filter (fun id => !st.processedIds.contains id),
      x ∈ layer ∧ x ∉ st.processedIds := by
    intro x hx
    have h := List.mem_filter.mp hx
    refine ⟨h.1, ?_⟩
    intro hmem
    have hcon : st.processedIds.contains x = true :=
      List.elem_eq_true_of_mem hmem
    have h2 := h.2
    rw [hcon] at h2
    simp at h2
  by_cases hgt : (layer.filter (fun id => !st.processedIds.contains id)).length >
      cfg.max_nodes_per_layer
  · simp only [hgt, if_true]
    refine ⟨?_, ?_, ?_⟩
    · intro x hx
      have h1 : x ∈ shuffleArray rand
          (layer.filter (fun id => !st.processedIds.contains id)) :=
        List.mem_of_mem_take hx
      have h2 := (shuffleArray_perm rand _).mem_iff.mp h1
      exact hmemfilter x h2
    · intro hnd
      have h1 : (layer.filter (fun id => !st.processedIds.contains id)).Nodup :=
        hnd.filter _
      have h2 : (shuffleArray rand
          (layer.filter (fun id => !st.processedIds.contains id))).Nodup :=
        ((shuffleArray_perm rand _).nodup_iff).mpr h1
      exact h2.sublist (List.take_sublist _ _)
    · exact List.length_take_le _ _
  · simp only [hgt, if_false]
    exact ⟨hmemfilter, fun hnd => hnd.filter _, by omega⟩

theorem genLoop_batches (fetch : List String → List ConnectionData)
    (rand : Nat → Nat) (ds : List Nat) (st : GenState) (layer : List String)
    (log : List (List String))
    (hlog : ∀ b ∈ log, ∀ x ∈ b, x ∈ st.processedIds)
    (hpw : List.Pairwise (fun b1 b2 => ∀ x ∈ b1, x ∉ b2) log)
    (hproc : ∀ x ∈ st.processedIds, x ∈ keysN st.nodes)
    (hlayer : ∀ x ∈ layer, x ∈ keysN st.nodes)
    (hnd : layer.Nodup ∨
      (∀ d, ds.head? = some d →
        (getDepthConfig (d + 1)).max_nodes_per_layer ≤
          (getDepthConfig (d + 1)).batch_size)) :
    List.Pairwise (fun b1 b2 => ∀ x ∈ b1, x ∉ b2)
      (genLoop fetch rand ds st layer log).2 := by
  induction ds generalizing st layer log with
  | nil => simpa [genLoop] using hpw
  | cons d ds ih =>
    by_cases hempty : layer.isEmpty
    · simp only [genLoop, hempty, if_true]
      exact hpw
    · simp only [genLoop, hempty, Bool.false_eq_true, if_false]
      obtain ⟨hmem, hndP, hlen⟩ :=
        toProcess_facts rand st layer (getDepthConfig (d + 1))
      set toProcess := (if (layer.filter
          (fun id => !st.processedIds.contains id)).length >
            (getDepthConfig (d + 1)).max_nodes_per_layer then
          (shuffleArray rand (layer.filter
            (fun id => !st.processedIds.contains id))).take
            (getDepthConfig (d + 1)).max_nodes_per_layer
        else layer.filter (fun id => !st.processedIds.contains id))
        with hTP
      by_cases hTPempty : toProcess.isEmpty
      · simp only [hTPempty, if_true]
        exact hpw
      · simp only [hTPempty, Bool.false_eq_true, if_false]
        have hTPne : toProcess ≠ [] := by
          intro h
          rw [h] at hTPempty
          exact hTPempty rfl
        have hbatchsub : ∀ b ∈ chunks (getDepthConfig (d + 1)).batch_size toProcess,
            ∀ x ∈ b, x ∈ toProcess := fun b hb x hx => chunks_subset _ _ _ hb x hx
        have hbatchpw : List.Pairwise (fun b1 b2 => ∀ x ∈ b1, x ∉ b2)
            (chunks (getDepthConfig (d + 1)).batch_size toProcess) := by
          rcases hnd with hndl | hcfg
          · exact chunks_pairwise _ _ (hndP hndl)
          · have hbound := hcfg d rfl
            have hle : toProcess.length ≤ (getDepthConfig (d + 1)).batch_size := by
              omega
            rw [chunks_single _ _ hTPne hle]
            simp
        obtain ⟨q1, q2, q3, q4, q5, q6, q7⟩ := processConns_spec
          (((chunks (getDepthConfig (d + 1)).batch_size toProcess).map fetch).flatten)
          st []
        have hnextkeys : ∀ x ∈ (processConns (st, [])
            (((chunks (getDepthConfig (d + 1)).batch_size toProcess).map
              fetch).flatten)).2,
            x ∈ keysN (processConns (st, [])
              (((chunks (getDepthConfig (d + 1)).batch_size toProcess).map
                fetch).flatten)).1.nodes :=
          q6 (by intro x hx; simp at hx)
        have hnextnd : (processConns (st, [])
            (((chunks (getDepthConfig (d + 1)).batch_size toProcess).map
              fetch).flatten)).2.Nodup :=
          q7 (List.nodup_nil) (by intro x hx; simp at hx)
        apply ih
        · intro b hb x hx
          rcases List.mem_append.mp hb with hb | hb
          · simp only
            rw [mem_addAllToSet]
            left
            rw [q1]
            exact hlog b hb x hx
          · simp only
            rw [mem_addAllToSet]
            right
            exact hbatchsub b hb x hx
        · rw [List.pairwise_append]
          refine ⟨hpw, hbatchpw, ?_⟩
          intro a ha b hb x hxa
          intro hxb
          have h1 := hlog a ha x hxa
          have h2 := (hmem x (hbatchsub b hb x hxb)).2
          exact h2 h1
        · intro x hx
          simp only at hx
          rw [mem_addAllToSet] at hx
          rcases hx with hx | hx
          · rw [q1] at hx
            exact q3 x (hproc x hx)
          · exact q3 x (hlayer x (hmem x hx).1)
        · exact hnextkeys
        · exact Or.inl hnextnd

/-- Inversion of a successful `generateGraph` run into its validation results
and its seeding/loop decomposition. -/
theorem generateGraph_ok_inv (resolve : String → Option String)
    (fetch : List String → List ConnectionData) (rand : Nat → Nat)
    (request : GenerateMapRequest) (ns : List GraphNode) (es : List GraphEdge)
    (lg : List (List String))
    (h : generateGraph resolve fetch rand request = .ok (ns, es, lg)) :
    ∃ names rawQids depth qids,
      (match request.names with
       | some l => validateEntityList l 10
       | none => .ok []) = .ok names ∧
      (match request.qids with
       | some l => validateEntityList l 10
       | none => .ok []) = .ok rawQids ∧
      validateDepth request.depth = .ok depth ∧
      rawQids.mapM sanitizeQid = .ok qids ∧
      ns = ((genLoop fetch rand (List.range depth)
        (names.foldl (seedNameStep resolve)
          (qids.foldl seedQidStep (⟨[], [], [], [], []⟩, []))).1
        (names.foldl (seedNameStep resolve)
          (qids.foldl seedQidStep (⟨[], [], [], [], []⟩, []))).2
        []).1.nodes.map Prod.snd) ∧
      es = (genLoop fetch rand (List.range depth)
        (names.foldl (seedNameStep resolve)
          (qids.foldl seedQidStep (⟨[], [], [], [], []⟩, []))).1
        (names.foldl (seedNameStep resolve)
          (qids.foldl seedQidStep (⟨[], [], [], [], []⟩, []))).2
        []).1.edges ∧
      lg = (genLoop fetch rand (List.range depth)
        (names.foldl (seedNameStep resolve)
          (qids.foldl seedQidStep (⟨[], [], [], [], []⟩, []))).1
        (names.foldl (seedNameStep resolve)
          (qids.foldl seedQidStep (⟨[], [], [], [], []⟩, []))).2
        []).2 := by
  unfold generateGraph at h
  split at h
  case h_1 e he => exact absurd h (by simp)
  case h_2 names hnames =>
    split at h
    case h_1 e he => exact absurd h (by simp)
    case h_2 rawQids hqids =>
      split at h
      case h_1 e he => exact absurd h (by simp)
      case h_2 depth hdepth =>
        by_cases hne : (names.isEmpty && rawQids.isEmpty) = true
        case pos =>
          rw [if_pos hne] at h
          exact absurd h (by simp)
        case neg =>
          rw [if_neg hne] at h
          split at h
          case h_1 e he => exact absurd h (by simp)
          case h_2 qids hsan =>
            by_cases hlayer : (names.foldl (seedNameStep resolve)
                (qids.foldl seedQidStep
                  (⟨[], [], [], [], []⟩, []))).2.isEmpty = true
            case pos =>
              rw [if_pos hlayer] at h
              exact absurd h (by simp)
            case neg =>
              rw [if_neg hlayer] at h
              refine ⟨names, rawQids, depth, qids, hnames, hqids, hdepth, hsan,
                ?_, ?_, ?_⟩
              all_goals
                simp only [Except.ok.injEq, Prod.mk.injEq] at h
                obtain ⟨h1, h2, h3⟩ := h
                first
                | exact h1.symm
                | exact h2.symm
                | exact h3.symm

/-- The head of `List.range depth` is `0` when it exists. -/
theorem range_head_eq_zero (depth d : Nat)
    (h : (List.range depth).head? = some d) : d = 0 := by
  cases depth with
  | zero => simp [List.range_zero] at h
  | succ n =>
    rw [List.range_succ_eq_map] at h
    simp at h
    omega

/-- **C2, counterexample**: the seed QIDs are deduplicated on the raw trimmed
strings *before* `sanitizeQid` uppercases them, so `"q42"` and `"Q42"` both
normalise to `Q42` and the initial layer — and hence the first fetched batch —
contains `Q42` twice, refuting "the initial layer contains each seed
identifier at most once" and "every identifier is fetched at most once". -/
theorem c2_counterexample :
    (generateGraph (fun _ => none) (fun _ => []) (fun _ => 0)
        { names := none, qids := some ["q42", "Q42"], depth := 1 }).toOption.map
        (fun r => r.2.2) = some [["Q42", "Q42"]] ∧
    (["Q42", "Q42"].count "Q42") = 2 := by
  constructor
  · rfl
  · rfl

/-- **C2, amended**: seed identifiers are deduplicated only up to exact
string equality of the trimmed inputs, so case-variant QIDs can appear twice
inside the *first* batch; but across distinct fetched batches no identifier
ever repeats: every identifier selected for a layer is marked processed and
later layers are duplicate-free, so the batches of one whole crawl are
pairwise disjoint. -/
theorem c2_batches_pairwise_disjoint (resolve : String → Option String)
    (fetch : List String → List ConnectionData) (rand : Nat → Nat)
    (request : GenerateMapRequest) (ns : List GraphNode) (es : List GraphEdge)
    (lg : List (List String))
    (h : generateGraph resolve fetch rand request = .ok (ns, es, lg)) :
    List.Pairwise (fun b1 b2 => ∀ x ∈ b1, x ∉ b2) lg := by
  obtain ⟨names, rawQids, depth, qids, hnames, hqids, hdepth, hsan, hns, hes, hlg⟩ :=
    generateGraph_ok_inv resolve fetch rand request ns es lg h
  subst hlg
  have hseed : SeedSpec (⟨[], [], [], [], []⟩, [])
      (names.foldl (seedNameStep resolve)
        (qids.foldl seedQidStep (⟨[], [], [], [], []⟩, []))) :=
    SeedSpec_trans _ _ _ (seedQids_fold_spec qids _)
      (seedNames_fold_spec resolve names _)
  obtain ⟨s1, s2, s3, s4, s5, s6, s7⟩ := hseed
  apply genLoop_batches
  · intro b hb
    simp at hb
  · exact List.Pairwise.nil
  · intro x hx
    rw [s1] at hx
    simp at hx
  · exact s5 (by intro x hx; simp at hx)
  · right
    intro d hd
    have : d = 0 := range_head_eq_zero depth d hd
    subst this
    decide

/-- Witness for `c2_batches_pairwise_disjoint` at a concrete two-layer run. -/
theorem c2_witness :
    List.Pairwise (fun b1 b2 => ∀ x ∈ b1, x ∉ b2) [["Q42", "Q42"]] := by
  have h := c2_batches_pairwise_disjoint (fun _ => none) (fun _ => [])
    (fun _ => 0) { names := none, qids := some ["q42", "Q42"], depth := 1 }
    _ _ _ (by rfl)
  exact h

theorem processConn_edges (st : GenState) (next : List String)
    (c : ConnectionData) (hinv : EdgeInv st) :
    EdgeInv (processConn (st, next) c).1 ∧
    (∀ e ∈ st.edges, e ∈ (processConn (st, next) c).1.edges) ∧
    (∀ i ∈ st.edgeIds, i ∈ (processConn (st, next) c).1.edgeIds) ∧
    mkConnEdgeId c ∈ (processConn (st, next) c).1.edgeIds := by
  obtain ⟨e1, e2, e3⟩ := hinv
  unfold processConn
  by_cases h1 : hasNodeKey st.nodes c.target
  · simp only [h1, if_true]
    by_cases h2 : st.edgeIds.contains (c.source ++ "-" ++ c.target ++ "-" ++ c.label)
    · simp only [h2, if_true]
      refine ⟨⟨e1, e2, e3⟩, fun e he => he, fun i hi => hi, ?_⟩
      exact (List.elem_iff).mp h2
    · simp only [h2, Bool.false_eq_true, if_false]
      refine ⟨⟨?_, ?_, ?_⟩, ?_, ?_, ?_⟩
      · simp only [List.map_append, List.map_cons, List.map_nil]
        rw [e1]
      · rw [List.nodup_append]
        refine ⟨e2, List.nodup_singleton _, ?_⟩
        intro i hi
        simp only [List.mem_singleton]
        intro hcon
        subst hcon
        exact h2 (List.elem_eq_true_of_mem hi)
      · intro e he
        rcases List.mem_append.mp he with he | he
        · exact e3 e he
        · simp only [List.mem_singleton] at he
          subst he
          rfl
      · intro e he
        exact List.mem_append_left _ he
      · intro i hi
        exact List.mem_append_left _ hi
      · exact List.mem_append_right _ (by simp [mkConnEdgeId])
  · simp only [h1, Bool.false_eq_true, if_false]
    by_cases h2 : st.edgeIds.contains (c.source ++ "-" ++ c.target ++ "-" ++ c.label)
    · simp only [h2, if_true]
      refine ⟨⟨e1, e2, e3⟩, fun e he => he, fun i hi => hi, ?_⟩
      exact (List.elem_iff).mp h2
    · simp only [h2, Bool.false_eq_true, if_false]
      refine ⟨⟨?_, ?_, ?_⟩, ?_, ?_, ?_⟩
      · simp only [List.map_append, List.map_cons, List.map_nil]
        rw [e1]
      · rw [List.nodup_append]
        refine ⟨e2, List.nodup_singleton _, ?_⟩
        intro i hi
        simp only [List.mem_singleton]
        intro hcon
        subst hcon
        exact h2 (List.elem_eq_true_of_mem hi)
      · intro e he
        rcases List.mem_append.mp he with he | he
        · exact e3 e he
        · simp only [List.mem_singleton] at he
          subst he
          rfl
      · intro e he
        exact List.mem_append_left _ he
      · intro i hi
        exact List.mem_append_left _ hi
      · exact List.mem_append_right _ (by simp [mkConnEdgeId])

theorem processConns_edges (conns : List ConnectionData) (st : GenState)
    (next : List String) (hinv : EdgeInv st) :
    EdgeInv (processConns (st, next) conns).1 ∧
    (∀ e ∈ st.edges, e ∈ (processConns (st, next) conns).1.edges) ∧
    (∀ i ∈ st.edgeIds, i ∈ (processConns (st, next) conns).1.edgeIds) ∧
    (∀ c ∈ conns, mkConnEdgeId c ∈ (processConns (st, next) conns).1.edgeIds) := by
  induction conns generalizing st next with
  | nil =>
    exact ⟨hinv, fun e he => he, fun i hi => hi, by simp⟩
  | cons c rest ih =>
    obtain ⟨p1, p2, p3, p4⟩ := processConn_edges st next c hinv
    have hone : processConns (st, next) (c :: rest) =
        processConns ((processConn (st, next) c).1, (processConn (st, next) c).2)
          rest := rfl
    obtain ⟨q1, q2, q3, q4⟩ :=
      ih (processConn (st, next) c).1 (processConn (st, next) c).2 p1
    rw [hone]
    refine ⟨q1, ?_, ?_, ?_⟩
    · intro e he
      exact q2 e (p2 e he)
    · intro i hi
      exact q3 i (p3 i hi)
    · intro c' hc'
      rcases List.mem_cons.mp hc' with rfl | hc'
      · exact q3 _ p4
      · exact q4 c' hc'

theorem genLoop_edges (fetch : List String → List ConnectionData)
    (rand : Nat → Nat) (ds : List Nat) (st : GenState) (layer : List String)
    (log : List (List String)) (hinv : EdgeInv st)
    (hcov : ∀ b ∈ log, ∀ c ∈ fetch b, mkConnEdgeId c ∈ st.edgeIds) :
    EdgeInv (genLoop fetch rand ds st layer log).1 ∧
    (∀ b ∈ (genLoop fetch rand ds st layer log).2, ∀ c ∈ fetch b,
      mkConnEdgeId c ∈ (genLoop fetch rand ds st layer log).1.edgeIds) := by
  induction ds generalizing st layer log with
  | nil => exact ⟨hinv, hcov⟩
  | cons d ds ih =>
    by_cases hempty : layer.isEmpty
    · simp only [genLoop, hempty, if_true]
      exact ⟨hinv, hcov⟩
    · simp only [genLoop, hempty, Bool.false_eq_true, if_false]
      set toProcess := (if (layer.filter
          (fun id => !st.processedIds.contains id)).length >
            (getDepthConfig (d + 1)).max_nodes_per_layer then
          (shuffleArray rand (layer.filter
            (fun id => !st.processedIds.contains id))).take
            (getDepthConfig (d + 1)).max_nodes_per_layer
        else layer.filter (fun id => !st.processedIds.contains id))
        with hTP
      by_cases hTPempty : toProcess.isEmpty
      · simp only [hTPempty, if_true]
        exact ⟨hinv, hcov⟩
      · simp only [hTPempty, Bool.false_eq_true, if_false]
        obtain ⟨q1, q2, q3, q4⟩ := processConns_edges
          (((chunks (getDepthConfig (d + 1)).batch_size toProcess).map
            fetch).flatten) st [] hinv
        apply ih
        · exact q1
        · intro b hb c hc
          rcases List.mem_append.mp hb with hb | hb
          · exact q3 _ (hcov b hb c hc)
          · apply q4
            rw [List.mem_flatten]
            exact ⟨fetch b, List.mem_map_of_mem fetch hb, hc⟩

/-- **C3**: across a whole successful `generateGraph` crawl no two returned
edges share a derived id, every edge's id is exactly the deterministic
`source ++ "-" ++ target ++ "-" ++ label` string of its own fields, and every
connection fetched in any batch is represented by an edge with its derived id
(so two discoveries of the same triple collapse to exactly one edge). -/
theorem c3_edge_dedup (resolve : String → Option String)
    (fetch : List String → List ConnectionData) (rand : Nat → Nat)
    (request : GenerateMapRequest) (ns : List GraphNode) (es : List GraphEdge)
    (lg : List (List String))
    (h : generateGraph resolve fetch rand request = .ok (ns, es, lg)) :
    (es.map (fun e => e.id)).Nodup ∧
    (∀ e ∈ es, e.id = e.from_ ++ "-" ++ e.to_ ++ "-" ++ e.label) ∧
    (∀ b ∈ lg, ∀ c ∈ fetch b, ∃ e ∈ es, e.id = mkConnEdgeId c) := by
  obtain ⟨names, rawQids, depth, qids, hnames, hqids, hdepth, hsan, hns, hes, hlg⟩ :=
    generateGraph_ok_inv resolve fetch rand request ns es lg h
  have hseed : SeedSpec (⟨[], [], [], [], []⟩, [])
      (names.foldl (seedNameStep resolve)
        (qids.foldl seedQidStep (⟨[], [], [], [], []⟩, []))) :=
    SeedSpec_trans _ _ _ (seedQids_fold_spec qids _)
      (seedNames_fold_spec resolve names _)
  obtain ⟨s1, s2, s3, s4, s5, s6, s7⟩ := hseed
  have hinv0 : EdgeInv (names.foldl (seedNameStep resolve)
      (qids.foldl seedQidStep (⟨[], [], [], [], []⟩, []))).1 := by
    refine ⟨?_, ?_, ?_⟩
    · rw [s3, s2]
      rfl
    · rw [s3]
      exact List.nodup_nil
    · rw [s2]
      intro e he
      simp at he
  obtain ⟨⟨f1, f2, f3⟩, fcov⟩ := genLoop_edges fetch rand (List.range depth)
    (names.foldl (seedNameStep resolve)
      (qids.foldl seedQidStep (⟨[], [], [], [], []⟩, []))).1
    (names.foldl (seedNameStep resolve)
      (qids.foldl seedQidStep (⟨[], [], [], [], []⟩, []))).2
    [] hinv0 (by intro b hb; simp at hb)
  subst hes hlg
  refine ⟨?_, f3, ?_⟩
  · rw [← f1]
    exact f2
  · intro b hb c hc
    have := fcov b hb c hc
    rw [f1] at this
    obtain ⟨e, he, heq⟩ := List.mem_map.mp this
    exact ⟨e, he, heq⟩

/-- Witness for `c3_edge_dedup`: a batch containing the same triple twice
yields exactly one edge carrying the derived id. -/
theorem c3_witness :
    ∃ e ∈ [dupEdge], e.id = mkConnEdgeId dupConn :=
  (c3_edge_dedup (fun _ => none) fetchDup (fun _ => 0)
    { names := none, qids := some ["Q1"], depth := 1 }
    [dupSeedNode, dupTargetNode] [dupEdge]
    [["Q1"]] (by rfl)).2.2 ["Q1"] (by decide) dupConn (by decide)

theorem processConn_nodes_inv (st : GenState) (next : List String)
    (c : ConnectionData) :
    ((keysN st.nodes).Nodup →
      (keysN (processConn (st, next) c).1.nodes).Nodup) ∧
    ((∀ p ∈ st.nodes, p.2.id = p.1) →
      ∀ p ∈ (processConn (st, next) c).1.nodes, p.2.id = p.1) ∧
    (∀ k, k ∈ keysN st.nodes →
      lookupNode (processConn (st, next) c).1.nodes k = lookupNode st.nodes k) := by
  unfold processConn
  by_cases h1 : hasNodeKey st.nodes c.target
  · simp only [h1, if_true]
    by_cases h2 : st.edgeIds.contains (c.source ++ "-" ++ c.target ++ "-" ++ c.label)
    · simp only [h2, if_true]
      exact ⟨fun h => h, fun h => h, fun k _ => by trivial⟩
    · simp only [h2, Bool.false_eq_true, if_false]
      exact ⟨fun h => h, fun h => h, fun k _ => by trivial⟩
  · simp only [h1, Bool.false_eq_true, if_false]
    have hfresh : c.target ∉ keysN st.nodes := by
      intro hmem
      exact h1 ((hasNodeKey_iff st.nodes c.target).mpr hmem)
    by_cases h2 : st.edgeIds.contains (c.source ++ "-" ++ c.target ++ "-" ++ c.label)
    · simp only [h2, if_true]
      refine ⟨fun h => nodesSet_nodupKeys _ _ _ h,
        fun h => nodesSet_id_inv _ _ _ h rfl, ?_⟩
      intro k hk
      refine lookupNode_set_ne _ _ _ _ ?_
      intro hcon
      subst hcon
      exact hfresh hk
    · simp only [h2, Bool.false_eq_true, if_false]
      refine ⟨fun h => nodesSet_nodupKeys _ _ _ h,
        fun h => nodesSet_id_inv _ _ _ h rfl, ?_⟩
      intro k hk
      refine lookupNode_set_ne _ _ _ _ ?_
      intro hcon
      subst hcon
      exact hfresh hk

theorem processConns_nodes_inv (conns : List ConnectionData) (st : GenState)
    (next : List String) :
    ((keysN st.nodes).Nodup →
      (keysN (processConns (st, next) conns).1.nodes).Nodup) ∧
    ((∀ p ∈ st.nodes, p.2.id = p.1) →
      ∀ p ∈ (processConns (st, next) conns).1.nodes, p.2.id = p.1) ∧
    (∀ k, k ∈ keysN st.nodes →
      lookupNode (processConns (st, next) conns).1.nodes k =
        lookupNode st.nodes k) := by
  induction conns generalizing st next with
  | nil => exact ⟨fun h => h, fun h => h, fun k _ => rfl⟩
  | cons c rest ih =>
    obtain ⟨p1, p2, p3⟩ := processConn_nodes_inv st next c
    obtain ⟨q1, q2, q3⟩ :=
      ih (processConn (st, next) c).1 (processConn (st, next) c).2
    obtain ⟨m1, m2, m3, _⟩ := processConn_spec st next c
    have hone : processConns (st, next) (c :: rest) =
        processConns ((processConn (st, next) c).1, (processConn (st, next) c).2)
          rest := rfl
    rw [hone]
    refine ⟨fun h => q1 (p1 h), fun h => q2 (p2 h), ?_⟩
    intro k hk
    rw [q3 k (m3 k hk), p3 k hk]

theorem genLoop_nodes_inv (fetch : List String → List ConnectionData)
    (rand : Nat → Nat) (ds : List Nat) (st : GenState) (layer : List String)
    (log : List (List String))
    (hnd : (keysN st.nodes).Nodup) (hid : ∀ p ∈ st.nodes, p.2.id = p.1) :
    (keysN (genLoop fetch rand ds st layer log).1.nodes).Nodup ∧
    (∀ p ∈ (genLoop fetch rand ds st layer log).1.nodes, p.2.id = p.1) := by
  induction ds generalizing st layer log with
  | nil => exact ⟨hnd, hid⟩
  | cons d ds ih =>
    by_cases hempty : layer.isEmpty
    · simp only [genLoop, hempty, if_true]
      exact ⟨hnd, hid⟩
    · simp only [genLoop, hempty, Bool.false_eq_true, if_false]
      set toProcess := (if (layer.filter
          (fun id => !st.processedIds.contains id)).length >
            (getDepthConfig (d + 1)).max_nodes_per_layer then
          (shuffleArray rand (layer.filter
            (fun id => !st.processedIds.contains id))).take
            (getDepthConfig (d + 1)).max_nodes_per_layer
        else layer.filter (fun id => !st.processedIds.contains id))
        with hTP
      by_cases hTPempty : toProcess.isEmpty
      · simp only [hTPempty, if_true]
        exact ⟨hnd, hid⟩
      · simp only [hTPempty, Bool.false_eq_true, if_false]
        obtain ⟨q1, q2, q3⟩ := processConns_nodes_inv
          (((chunks (getDepthConfig (d + 1)).batch_size toProcess).map
            fetch).flatten) st []
        exact ih _ _ _ (q1 hnd) (q2 hid)

/-- **C5, counterexample**: a later connection-phase discovery of the already
known id `Q2` carries the display label `"Y"`, yet the returned node keeps its
original label `"X"` — the claimed "later discoveries update the display
label" fails for the connection-processing phase. -/
theorem c5_counterexample :
    (generateGraph (fun _ => none) fetchXY (fun _ => 0)
        { names := none, qids := some ["Q1"], depth := 1 }).toOption.map
      (fun r => r.1.map (fun n => (n.id, n.label))) =
      some [("Q1", "Q1"), ("Q2", "X")] ∧
    connY.target = "Q2" ∧ connY.target_label = "Y" ∧ ("X" : String) ≠ "Y" :=
  ⟨rfl, rfl, rfl, by decide⟩

/-- **C5, amended**: the returned node list never contains two nodes with the
same id (a node is created at most once per unique id); connection-phase
rediscoveries of an existing id leave the stored node entirely unchanged
(label included), while during seed-name resolution a name resolving to an
already-present id updates that node's label in place without adding a
node. -/
theorem c5_node_identity :
    (∀ (resolve : String → Option String)
        (fetch : List String → List ConnectionData) (rand : Nat → Nat)
        (request : GenerateMapRequest) (ns : List GraphNode)
        (es : List GraphEdge) (lg : List (List String)),
        generateGraph resolve fetch rand request = .ok (ns, es, lg) →
        (ns.map (fun n => n.id)).Nodup) ∧
    (∀ (st : GenState) (next : List String) (conns : List ConnectionData)
        (k : String), k ∈ keysN st.nodes →
        lookupNode (processConns (st, next) conns).1.nodes k =
          lookupNode st.nodes k) ∧
    (∀ (resolve : String → Option String) (acc : GenState × List String)
        (name qid : String), resolve name = some qid →
        hasNodeKey acc.1.nodes qid = true →
        (seedNameStep resolve acc name).1.nodes =
          nodesSetLabel acc.1.nodes qid name ∧
        (seedNameStep resolve acc name).2 = acc.2) := by
  refine ⟨?_, ?_, ?_⟩
  · intro resolve fetch rand request ns es lg h
    obtain ⟨names, rawQids, depth, qids, hnames, hqids, hdepth, hsan, hns, hes, hlg⟩ :=
      generateGraph_ok_inv resolve fetch rand request ns es lg h
    have hseed : SeedSpec (⟨[], [], [], [], []⟩, [])
        (names.foldl (seedNameStep resolve)
          (qids.foldl seedQidStep (⟨[], [], [], [], []⟩, []))) :=
      SeedSpec_trans _ _ _ (seedQids_fold_spec qids _)
        (seedNames_fold_spec resolve names _)
    obtain ⟨s1, s2, s3, s4, s5, s6, s7⟩ := hseed
    obtain ⟨g1, g2⟩ := genLoop_nodes_inv fetch rand (List.range depth)
      (names.foldl (seedNameStep resolve)
        (qids.foldl seedQidStep (⟨[], [], [], [], []⟩, []))).1
      (names.foldl (seedNameStep resolve)
        (qids.foldl seedQidStep (⟨[], [], [], [], []⟩, []))).2
      [] (s6 (by simp [keysN])) (s7 (by simp))
    subst hns
    have hmapeq : ((genLoop fetch rand (List.range depth)
        (names.foldl (seedNameStep resolve)
          (qids.foldl seedQidStep (⟨[], [], [], [], []⟩, []))).1
        (names.foldl (seedNameStep resolve)
          (qids.foldl seedQidStep (⟨[], [], [], [], []⟩, []))).2
        []).1.nodes.map Prod.snd).map (fun n => n.id) =
        keysN (genLoop fetch rand (List.range depth)
          (names.foldl (seedNameStep resolve)
            (qids.foldl seedQidStep (⟨[], [], [], [], []⟩, []))).1
          (names.foldl (seedNameStep resolve)
            (qids.foldl seedQidStep (⟨[], [], [], [], []⟩, []))).2
          []).1.nodes := by
      rw [List.map_map, keysN]
      refine List.map_congr_left ?_
      intro p hp
      exact g2 p hp
    rw [hmapeq]
    exact g1
  · intro st next conns k hk
    exact (processConns_nodes_inv conns st next).2.2 k hk
  · intro resolve acc name qid hres hkey
    unfold seedNameStep
    rw [hres]
    simp only [hkey, if_true]
    exact ⟨by trivial, by trivial⟩

/-- Witness for `c5_node_identity` at the duplicate-discovery run. -/
theorem c5_witness :
    (([dupSeedNode, dupTargetNode].map (fun n => n.id)).Nodup) :=
  c5_node_identity.1 (fun _ => none) fetchDup (fun _ => 0)
    { names := none, qids := some ["Q1"], depth := 1 }
    [dupSeedNode, dupTargetNode] [dupEdge] [["Q1"]] (by rfl)

theorem find?_append_some {α : Type} (p : α → Bool) (l₁ l₂ : List α) (a : α)
    (h : l₁.find? p = some a) : (l₁ ++ l₂).find? p = some a := by
  induction l₁ with
  | nil => simp [List.find?] at h
  | cons x t ih =>
    rw [List.cons_append] at *
    cases hx : p x
    · rw [List.find?_cons_of_neg _ (by simp [hx])] at h ⊢
      exact ih h
    · rw [List.find?_cons_of_pos _ hx] at h ⊢
      exact h

theorem find?_append_none {α : Type} (p : α → Bool) (l₁ l₂ : List α)
    (h : l₁.find? p = none) : (l₁ ++ l₂).find? p = l₂.find? p := by
  induction l₁ with
  | nil => rfl
  | cons x t ih =>
    cases hx : p x
    · rw [List.find?_cons_of_neg _ (by simp [hx])] at h
      rw [List.cons_append, List.find?_cons_of_neg _ (by simp [hx])]
      exact ih h
    · rw [List.find?_cons_of_pos _ hx] at h
      exact absurd h (by simp)

theorem parGet_append_of_some (par l : ParentMap) (k : String)
    (r : String × String) (h : parGet par k = some r) :
    parGet (par ++ l) k = some r := by
  simp only [parGet, Option.map_eq_some'] at h ⊢
  obtain ⟨q, hq, hqr⟩ := h
  exact ⟨q, find?_append_some _ _ _ _ hq, hqr⟩

theorem parGet_append_fresh (par : ParentMap) (k : String)
    (r : String × String) (h : parGet par k = none) :
    parGet (par ++ [(k, r)]) k = some r := by
  simp only [parGet, Option.map_eq_none'] at h
  simp only [parGet, find?_append_none _ _ _ h]
  simp [List.find?]

theorem parGet_append_ne (par : ParentMap) (k c : String)
    (r : String × String) (h : k ≠ c) :
    parGet (par ++ [(c, r)]) k = parGet par k := by
  cases hf : par.find? (fun q => q.1 = k) with
  | some q => simp only [parGet, find?_append_some _ _ _ _ hf, hf]
  | none =>
    simp only [parGet, find?_append_none _ _ _ hf, hf]
    simp [List.find?, decide_eq_false (Ne.symm h)]

theorem parGet_some_mem_keys (par : ParentMap) (k : String)
    (r : String × String) (h : parGet par k = some r) :
    k ∈ par.map Prod.fst := by
  simp only [parGet, Option.map_eq_some'] at h
  obtain ⟨q, hq, _⟩ := h
  have hm := List.mem_of_find?_eq_some hq
  have hp := List.find?_some hq
  simp only [decide_eq_true_eq] at hp
  exact List.mem_map.mpr ⟨q, hm, hp⟩

theorem adjHas_iff_mem_keys (m : AdjList) (k : String) :
    adjHas m k = true ↔ k ∈ m.map Prod.fst := by
  simp only [adjHas, List.any_eq_true, List.mem_map, decide_eq_true_eq]

theorem adjGet_of_not_has (m : AdjList) (k : String)
    (h : adjHas m k = false) : adjGet m k = [] := by
  cases hf : m.find? (fun p => p.1 = k) with
  | none => simp [adjGet, hf]
  | some q =>
    have hm := List.mem_of_find?_eq_some hf
    have hp := List.find?_some hf
    simp only [decide_eq_true_eq] at hp
    have : adjHas m k = true := by
      simp only [adjHas, List.any_eq_true, decide_eq_true_eq]
      exact ⟨q, hm, hp⟩
    rw [h] at this
    cases this

theorem adjEnsure_has_iff (m : AdjList) (k x : String) :
    adjHas (adjEnsure m k) x = true ↔ (adjHas m x = true ∨ x = k) := by
  unfold adjEnsure
  by_cases h : adjHas m k = true
  · rw [if_pos h]
    constructor
    · exact Or.inl
    · rintro (hx | rfl)
      · exact hx
      · exact h
  · rw [if_neg h]
    simp only [adjHas, List.any_append, Bool.or_eq_true, List.any_cons,
      List.any_nil, Bool.or_false, decide_eq_true_eq]
    constructor
    · rintro (hx | hx)
      · exact Or.inl hx
      · exact Or.inr hx.symm
    · rintro (hx | rfl)
      · exact Or.inl hx
      · exact Or.inr rfl

theorem adjGet_ensure (m : AdjList) (k x : String) :
    adjGet (adjEnsure m k) x = adjGet m x := by
  unfold adjEnsure
  by_cases h : adjHas m k = true
  · rw [if_pos h]
  · rw [if_neg h]
    cases hf : m.find? (fun p => p.1 = x) with
    | some q => simp [adjGet, find?_append_some _ _ _ _ hf, hf]
    | none =>
      simp only [adjGet, find?_append_none _ _ _ hf, hf]
      by_cases hxk : k = x
      · subst hxk
        have := adjGet_of_not_has m k (by simpa using h)
        simp only [adjGet, hf] at this
        simp [List.find?, this]
      · simp [List.find?, hxk]

theorem adjPush_keys (m : AdjList) (k : String) (v : Adjacent) :
    (adjPush m k v).map Prod.fst = m.map Prod.fst := by
  induction m with
  | nil => rfl
  | cons p t ih =>
    simp only [adjPush, List.map_cons] at ih ⊢
    by_cases h : p.1 = k
    · simp [h, ih]
    · simp [h, ih]

theorem adjPush_has (m : AdjList) (k x : String) (v : Adjacent) :
    adjHas (adjPush m k v) x = adjHas m x := by
  cases hm : adjHas m x
  · cases hp : adjHas (adjPush m k v) x
    · rfl
    · rw [adjHas_iff_mem_keys, adjPush_keys, ← adjHas_iff_mem_keys, hm] at hp
      cases hp
  · rw [adjHas_iff_mem_keys, adjPush_keys, ← adjHas_iff_mem_keys, hm]

theorem adjPush_cons (a : String) (l : List Adjacent) (t : AdjList)
    (k : String) (v : Adjacent) :
    adjPush ((a, l) :: t) k v =
      (if a = k then (a, l ++ [v]) else (a, l)) :: adjPush t k v := by
  unfold adjPush
  by_cases h : a = k
  · simp [h]
  · simp [h]

theorem adjGet_cons (a : String) (l : List Adjacent) (t : AdjList)
    (x : String) :
    adjGet ((a, l) :: t) x = if a = x then l else adjGet t x := by
  by_cases h : a = x
  · simp [adjGet, List.find?, h]
  · simp [adjGet, List.find?, h]

theorem adjHas_cons (a : String) (l : List Adjacent) (t : AdjList)
    (x : String) :
    adjHas ((a, l) :: t) x = (decide (a = x) || adjHas t x) := by
  simp [adjHas, List.any_cons]

theorem adjGet_push_self (m : AdjList) (k : String) (v : Adjacent)
    (h : adjHas m k = true) :
    adjGet (adjPush m k v) k = adjGet m k ++ [v] := by
  induction m with
  | nil => cases h
  | cons p t ih =>
    obtain ⟨a, l⟩ := p
    rw [adjPush_cons]
    by_cases hp : a = k
    · rw [if_pos hp, adjGet_cons, adjGet_cons, if_pos hp, if_pos hp]
    · rw [adjHas_cons] at h
      simp only [decide_eq_false hp, Bool.false_or] at h
      rw [if_neg hp, adjGet_cons, adjGet_cons, if_neg hp, if_neg hp]
      exact ih h

theorem adjGet_push_ne (m : AdjList) (k x : String) (v : Adjacent)
    (h : x ≠ k) : adjGet (adjPush m k v) x = adjGet m x := by
  induction m with
  | nil => rfl
  | cons p t ih =>
    obtain ⟨a, l⟩ := p
    rw [adjPush_cons]
    by_cases hp : a = k
    · have hpx : ¬ (a = x) := fun hh => h (hh ▸ hp)
      rw [if_pos hp, adjGet_cons, adjGet_cons, if_neg hpx, if_neg hpx]
      exact ih
    · rw [if_neg hp]
      by_cases hx : a = x
      · rw [adjGet_cons, adjGet_cons, if_pos hx, if_pos hx]
      · rw [adjGet_cons, adjGet_cons, if_neg hx, if_neg hx]
        exact ih

theorem adjGet_push (m : AdjList) (k x : String) (v : Adjacent)
    (h : adjHas m k = true) :
    adjGet (adjPush m k v) x = adjGet m x ++ (if x = k then [v] else []) := by
  by_cases hx : x = k
  · subst hx
    rw [adjGet_push_self _ _ _ h, if_pos rfl]
  · rw [adjGet_push_ne _ _ _ _ hx, if_neg hx, List.append_nil]

theorem addEdge_has_iff (m : AdjList) (e : GraphEdge) (x : String) :
    adjHas (addEdgeToAdj m e) x = true ↔
      (adjHas m x = true ∨ x = e.from_ ∨ x = e.to_) := by
  unfold addEdgeToAdj
  rw [adjPush_has, adjPush_has, adjEnsure_has_iff, adjEnsure_has_iff]
  tauto

theorem addEdge_get (m : AdjList) (e : GraphEdge) (u : String) :
    adjGet (addEdgeToAdj m e) u =
      adjGet m u ++
        ((if u = e.from_ then [Adjacent.mk e.to_ e.id] else []) ++
         (if u = e.to_ then [Adjacent.mk e.from_ e.id] else [])) := by
  have h1 : adjHas (adjEnsure (adjEnsure m e.from_) e.to_) e.from_ = true := by
    rw [adjEnsure_has_iff, adjEnsure_has_iff]
    tauto
  have h3 : adjHas (adjPush (adjEnsure (adjEnsure m e.from_) e.to_) e.from_
      (Adjacent.mk e.to_ e.id)) e.to_ = true := by
    rw [adjPush_has, adjEnsure_has_iff]
    tauto
  unfold addEdgeToAdj
  rw [adjGet_push _ _ _ _ h3, adjGet_push _ _ _ _ h1, adjGet_ensure, adjGet_ensure,
    List.append_assoc]

theorem occursIn_cons (e : GraphEdge) (t : List GraphEdge) (x : String) :
    occursIn (e :: t) x = true ↔
      (e.from_ = x ∨ e.to_ = x ∨ occursIn t x = true) := by
  simp only [occursIn, List.any_cons, Bool.or_eq_true, decide_eq_true_eq]
  tauto

theorem buildAdj_has_iff (edges : List GraphEdge) (x : String) :
    adjHas (buildAdj edges) x = true ↔ occursIn edges x = true := by
  suffices h : ∀ (rest : List GraphEdge) (m : AdjList),
      adjHas (rest.foldl addEdgeToAdj m) x = true ↔
        (adjHas m x = true ∨ occursIn rest x = true) by
    rw [buildAdj, h edges []]
    simp [adjHas]
  intro rest
  induction rest with
  | nil =>
    intro m
    simp [occursIn]
  | cons e t ih =>
    intro m
    rw [List.foldl_cons, ih, addEdge_has_iff, occursIn_cons e t x]
    constructor
    · rintro ((hm | rfl | rfl) | ht)
      · exact Or.inl hm
      · exact Or.inr (Or.inl rfl)
      · exact Or.inr (Or.inr (Or.inl rfl))
      · exact Or.inr (Or.inr (Or.inr ht))
    · rintro (hm | rfl | rfl | ht)
      · exact Or.inl (Or.inl hm)
      · exact Or.inl (Or.inr (Or.inl rfl))
      · exact Or.inl (Or.inr (Or.inr rfl))
      · exact Or.inr ht

theorem buildAdj_sound (edges : List GraphEdge) :
    ∀ u a, a ∈ adjGet (buildAdj edges) u →
      ∃ ed ∈ edges, ed.id = a.edgeId ∧ edgeConnects ed u a.neighbor = true := by
  suffices h : ∀ (rest : List GraphEdge) (m : AdjList),
      (∀ e ∈ rest, e ∈ edges) →
      (∀ u a, a ∈ adjGet m u →
        ∃ ed ∈ edges, ed.id = a.edgeId ∧ edgeConnects ed u a.neighbor = true) →
      ∀ u a, a ∈ adjGet (rest.foldl addEdgeToAdj m) u →
        ∃ ed ∈ edges, ed.id = a.edgeId ∧ edgeConnects ed u a.neighbor = true by
    refine h edges [] (fun e he => he) ?_
    intro u a ha
    simp [adjGet, List.find?] at ha
  intro rest
  induction rest with
  | nil =>
    intro m _ hP
    exact hP
  | cons e t ih =>
    intro m hsub hP
    rw [List.foldl_cons]
    refine ih _ (fun e' he' => hsub e' (List.mem_cons_of_mem _ he')) ?_
    intro u a ha
    rw [addEdge_get] at ha
    rcases List.mem_append.mp ha with ha | ha
    · exact hP u a ha
    · rcases List.mem_append.mp ha with ha | ha
      · by_cases hf : u = e.from_
        · rw [if_pos hf] at ha
          simp only [List.mem_singleton] at ha
          refine ⟨e, hsub e (List.mem_cons_self e t), ?_, ?_⟩
          · rw [ha]
          · rw [ha, hf]
            simp [edgeConnects]
        · rw [if_neg hf] at ha
          cases ha
      · by_cases hto : u = e.to_
        · rw [if_pos hto] at ha
          simp only [List.mem_singleton] at ha
          refine ⟨e, hsub e (List.mem_cons_self e t), ?_, ?_⟩
          · rw [ha]
          · rw [ha, hto]
            simp [edgeConnects]
        · rw [if_neg hto] at ha
          cases ha

theorem foldl_addEdge_get_mono (rest : List GraphEdge) (m : AdjList)
    (u : String) (a : Adjacent) (h : a ∈ adjGet m u) :
    a ∈ adjGet (rest.foldl addEdgeToAdj m) u := by
  induction rest generalizing m with
  | nil => exact h
  | cons e t ih =>
    rw [List.foldl_cons]
    refine ih _ ?_
    rw [addEdge_get]
    exact List.mem_append_left _ h

theorem foldl_addEdge_entries (rest : List GraphEdge) (m : AdjList)
    (e : GraphEdge) (he : e ∈ rest) :
    Adjacent.mk e.to_ e.id ∈ adjGet (rest.foldl addEdgeToAdj m) e.from_ ∧
      Adjacent.mk e.from_ e.id ∈ adjGet (rest.foldl addEdgeToAdj m) e.to_ := by
  induction rest generalizing m with
  | nil => cases he
  | cons e' t ih =>
    rw [List.foldl_cons]
    rcases List.mem_cons.mp he with rfl | he
    · constructor
      · refine foldl_addEdge_get_mono t _ _ _ ?_
        rw [addEdge_get]
        refine List.mem_append_right _ (List.mem_append_left _ ?_)
        rw [if_pos rfl]
        exact List.mem_singleton.mpr rfl
      · refine foldl_addEdge_get_mono t _ _ _ ?_
        rw [addEdge_get]
        refine List.mem_append_right _ (List.mem_append_right _ ?_)
        rw [if_pos rfl]
        exact List.mem_singleton.mpr rfl
    · exact ih _ he

theorem buildAdj_complete (edges : List GraphEdge) (u v : String)
    (h : adjacentIn edges u v = true) :
    ∃ a ∈ adjGet (buildAdj edges) u, a.neighbor = v := by
  simp only [adjacentIn, List.any_eq_true] at h
  obtain ⟨e, he, hc⟩ := h
  simp only [edgeConnects, Bool.or_eq_true, Bool.and_eq_true, decide_eq_true_eq] at hc
  rcases hc with ⟨hf, ht⟩ | ⟨hf, ht⟩
  · subst hf
    subst ht
    exact ⟨Adjacent.mk e.to_ e.id, (foldl_addEdge_entries edges [] e he).1, rfl⟩
  · subst hf
    subst ht
    exact ⟨Adjacent.mk e.from_ e.id, (foldl_addEdge_entries edges [] e he).2, rfl⟩

theorem PChain.head_eq {edges par s v ns es}
    (h : PChain edges par s v ns es) : ns.head? = some s := by
  induction h with
  | zero => rfl
  | succ hch hpar hm ih =>
    rename_i u v' e ns' es'
    cases ns' with
    | nil => cases ih
    | cons x t => simpa using ih

theorem PChain.last_eq {edges par s v ns es}
    (h : PChain edges par s v ns es) : ns.getLast? = some v := by
  induction h with
  | zero => rfl
  | succ hch hpar hm ih => exact List.getLast?_concat _

theorem PChain.length_eq {edges par s v ns es}
    (h : PChain edges par s v ns es) : ns.length = es.length + 1 := by
  induction h with
  | zero => rfl
  | succ hch hpar hm ih => simp [ih]

theorem PChain.ne_nil {edges par s v ns es}
    (h : PChain edges par s v ns es) : ns ≠ [] := by
  intro hn
  have := h.length_eq
  rw [hn] at this
  simp at this

theorem PChain.mono {edges par l s v ns es}
    (h : PChain edges par s v ns es) :
    PChain edges (par ++ l) s v ns es := by
  induction h with
  | zero => exact PChain.zero
  | succ hch hpar hm ih =>
    exact PChain.succ ih (parGet_append_of_some _ _ _ _ hpar) hm

theorem validSteps_concat (edges : List GraphEdge) (ns es : List String)
    (u v e : String) (h : validSteps edges ns es = true)
    (hu : ns.getLast? = some u) (hm : EdgeMatch edges e u v) :
    validSteps edges (ns ++ [v]) (es ++ [e]) = true := by
  induction ns generalizing es with
  | nil => cases es <;> simp [validSteps] at h
  | cons x t ih =>
    cases t with
    | nil =>
      cases es with
      | nil =>
        simp only [List.getLast?_singleton, Option.some.injEq] at hu
        subst hu
        obtain ⟨ed, hed, hid, hconn⟩ := hm
        simp only [List.cons_append, List.nil_append, validSteps,
          Bool.and_eq_true, List.any_eq_true]
        exact ⟨⟨ed, hed, by simp [hid, hconn]⟩, by trivial⟩
      | cons e' es' => simp [validSteps] at h
    | cons y t' =>
      cases es with
      | nil => simp [validSteps] at h
      | cons e' es' =>
        simp only [validSteps, Bool.and_eq_true] at h
        obtain ⟨h1, h2⟩ := h
        have hu' : (y :: t').getLast? = some u := by
          rwa [List.getLast?_cons_cons] at hu
        have := ih es' h2 hu'
        simp only [List.cons_append, validSteps, Bool.and_eq_true] at this ⊢
        exact ⟨h1, this⟩

theorem PChain.valid {edges par s v ns es}
    (h : PChain edges par s v ns es) : validSteps edges ns es = true := by
  induction h with
  | zero => rfl
  | succ hch hpar hm ih =>
    exact validSteps_concat _ _ _ _ _ _ ih hch.last_eq hm

theorem PChain.lvl_le {edges par s v ns es} (lvl : String → Nat)
    (hq : ∀ v u e, parGet par v = some (u, e) → lvl v = lvl u + 1)
    (h : PChain edges par s v ns es) : ∀ x ∈ ns, lvl x ≤ lvl v := by
  induction h with
  | zero =>
    intro x hx
    simp only [List.mem_singleton] at hx
    subst hx
    exact le_refl _
  | succ hch hpar hm ih =>
    rename_i u v' e ns' es'
    intro x hx
    rcases List.mem_append.mp hx with hx | hx
    · have h1 := ih x hx
      have h2 := hq _ _ _ hpar
      omega
    · simp only [List.mem_singleton] at hx
      subst hx
      exact le_refl _

theorem PChain.spine_nodup {edges par s v ns es} (lvl : String → Nat)
    (hq : ∀ v u e, parGet par v = some (u, e) → lvl v = lvl u + 1)
    (h : PChain edges par s v ns es) : ns.Nodup := by
  have hp : List.Pairwise (fun a b => lvl a < lvl b) ns := by
    induction h with
    | zero => simp
    | succ hch hpar hm ih =>
      rename_i u v' e ns' es'
      rw [List.pairwise_append]
      refine ⟨ih, by simp, ?_⟩
      intro x hx y hy
      simp only [List.mem_singleton] at hy
      subst hy
      have h1 := PChain.lvl_le lvl hq hch x hx
      have h2 := hq _ _ _ hpar
      omega
  refine hp.imp ?_
  intro a b hab heq
  rw [heq] at hab
  exact Nat.lt_irrefl _ hab

theorem PChain.tail_mem_keys {edges par s v ns es}
    (h : PChain edges par s v ns es) :
    ∀ x ∈ ns.drop 1, x ∈ par.map Prod.fst := by
  induction h with
  | zero =>
    intro x hx
    simp at hx
  | succ hch hpar hm ih =>
    rename_i u v' e ns' es'
    intro x hx
    rw [List.drop_append_of_le_length (by
      have := hch.length_eq
      omega)] at hx
    rcases List.mem_append.mp hx with hx | hx
    · exact ih x hx
    · simp only [List.mem_singleton] at hx
      subst hx
      exact parGet_some_mem_keys _ _ _ hpar

theorem PChain.es_length_le {edges par s v ns es} (lvl : String → Nat)
    (hq : ∀ v u e, parGet par v = some (u, e) → lvl v = lvl u + 1)
    (h : PChain edges par s v ns es) : es.length ≤ par.length := by
  have hnd : (ns.drop 1).Nodup := (h.spine_nodup lvl hq).sublist (List.drop_sublist 1 ns)
  have hsub : ∀ x ∈ ns.drop 1, x ∈ par.map Prod.fst := h.tail_mem_keys
  have hlen : (ns.drop 1).length = es.length := by
    have := h.length_eq
    simp [this]
  calc es.length = (ns.drop 1).length := hlen.symm
    _ = (ns.drop 1).toFinset.card := (List.toFinset_card_of_nodup hnd).symm
    _ ≤ (par.map Prod.fst).toFinset.card := by
        refine Finset.card_le_card ?_
        intro x hx
        rw [List.mem_toFinset] at hx ⊢
        exact hsub x hx
    _ ≤ (par.map Prod.fst).length := List.toFinset_card_le _
    _ = par.length := List.length_map _ _

theorem reconstructAux_chain (edges : List GraphEdge) (par : ParentMap)
    (s : String) (hs : parGet par s = none) :
    ∀ {v ns es}, PChain edges par s v ns es →
    ∀ fuel, es.length ≤ fuel → ∀ accN accE,
      reconstructAux par fuel v accN accE =
        (accN ++ ns.dropLast.reverse, accE ++ es.reverse) := by
  intro v ns es h
  induction h with
  | zero =>
    intro fuel hf accN accE
    cases fuel with
    | zero => simp [reconstructAux]
    | succ f => simp [reconstructAux, hs]
  | succ hch hpar hm ih =>
    rename_i u v' e ns' es'
    intro fuel hf accN accE
    cases fuel with
    | zero => simp at hf
    | succ f =>
      simp only [reconstructAux, hpar]
      rw [ih f (by simp at hf; omega) (accN ++ [u]) (accE ++ [e])]
      have hne : ns' ≠ [] := hch.ne_nil
      have hlast : ns'.getLast hne = u := by
        have h1 := hch.last_eq
        rw [List.getLast?_eq_getLast ns' hne] at h1
        exact Option.some.inj h1
      have hsplit : ns'.dropLast ++ [u] = ns' := by
        rw [← hlast]
        exact List.dropLast_append_getLast hne
      rw [List.dropLast_concat]
      have h1 : ns'.reverse = u :: ns'.dropLast.reverse := by
        conv_lhs => rw [← hsplit]
        simp
      rw [h1]
      simp

theorem reconstruct_eq (edges : List GraphEdge) (par : ParentMap)
    (s endId : String) (ns es : List String)
    (hs : parGet par s = none)
    (hch : PChain edges par s endId ns es)
    (hfuel : es.length ≤ par.length + 1) :
    reconstruct par endId = ⟨ns, es⟩ := by
  unfold reconstruct
  rw [reconstructAux_chain edges par s hs hch _ hfuel [endId] []]
  have hne : ns ≠ [] := hch.ne_nil
  have hlast : ns.getLast hne = endId := by
    have h1 := hch.last_eq
    rw [List.getLast?_eq_getLast ns hne] at h1
    exact Option.some.inj h1
  have hsplit : ns.dropLast ++ [endId] = ns := by
    rw [← hlast]
    exact List.dropLast_append_getLast hne
  simp only [List.nil_append, PathResult.mk.injEq]
  constructor
  · conv_rhs => rw [← hsplit]
    simp
  · simp

theorem ReachN.front {edges : List GraphEdge} {u v t : String} {n : Nat}
    (ha : adjacentIn edges u v = true) (h : ReachN edges v t n) :
    ReachN edges u t (n + 1) := by
  induction h with
  | zero => exact ReachN.succ ReachN.zero ha
  | succ hr hadj ih => exact ReachN.succ ih hadj

theorem ReachN.inv_zero {edges : List GraphEdge} {s w : String}
    (h : ReachN edges s w 0) : w = s := by
  cases h
  rfl

theorem ReachN.inv_succ {edges : List GraphEdge} {s w : String} {n : Nat}
    (h : ReachN edges s w (n + 1)) :
    ∃ v, ReachN edges s v n ∧ adjacentIn edges v w = true := by
  cases h with
  | succ hr ha => exact ⟨_, hr, ha⟩

theorem isWalk_reachN (edges : List GraphEdge) :
    ∀ l (a b : String), isWalk edges l = true → l.head? = some a →
      l.getLast? = some b → ReachN edges a b (l.length - 1) := by
  intro l
  induction l with
  | nil =>
    intro a b h _ _
    simp [isWalk] at h
  | cons x t ih =>
    intro a b h hh hl
    simp only [List.head?_cons, Option.some.injEq] at hh
    subst hh
    cases t with
    | nil =>
      simp only [List.getLast?_singleton, Option.some.injEq] at hl
      subst hl
      exact ReachN.zero
    | cons y t' =>
      simp only [isWalk, Bool.and_eq_true] at h
      obtain ⟨h1, h2⟩ := h
      have hl' : (y :: t').getLast? = some b := by
        rwa [List.getLast?_cons_cons] at hl
      have hr := ih y b h2 rfl hl'
      have hfin := ReachN.front h1 hr
      simpa using hfin

theorem validSteps_isWalk (edges : List GraphEdge) :
    ∀ ns es, validSteps edges ns es = true → isWalk edges ns = true := by
  intro ns
  induction ns with
  | nil =>
    intro es h
    cases es <;> simp [validSteps] at h
  | cons x t ih =>
    intro es h
    cases t with
    | nil =>
      cases es with
      | nil => rfl
      | cons e es' => simp [validSteps] at h
    | cons y t' =>
      cases es with
      | nil => simp [validSteps] at h
      | cons e es' =>
        simp only [validSteps, Bool.and_eq_true] at h
        obtain ⟨h1, h2⟩ := h
        simp only [isWalk, Bool.and_eq_true]
        refine ⟨?_, ih es' h2⟩
        simp only [List.any_eq_true, Bool.and_eq_true] at h1
        obtain ⟨ed, hed, _, hconn⟩ := h1
        simp only [adjacentIn, List.any_eq_true]
        exact ⟨ed, hed, hconn⟩

theorem contains_iff_mem (l : List String) (x : String) :
    l.contains x = true ↔ x ∈ l := by
  constructor
  · exact List.mem_of_elem_eq_true
  · exact List.elem_eq_true_of_mem

theorem chain_le_head (lvl : String → Nat) (a : String) (l : List String)
    (h : List.Chain' (fun x y => lvl x ≤ lvl y) (a :: l)) :
    ∀ b ∈ l, lvl a ≤ lvl b := by
  induction l generalizing a with
  | nil =>
    intro b hb
    cases hb
  | cons c t ih =>
    rw [List.chain'_cons] at h
    obtain ⟨hac, hct⟩ := h
    intro b hb
    rcases List.mem_cons.mp hb with rfl | hb
    · exact hac
    · exact le_trans hac (ih c hct b hb)

theorem chain'_imp_mem {α : Type} (R S : α → α → Prop) (l : List α)
    (h : List.Chain' R l) (himp : ∀ a ∈ l, ∀ b ∈ l, R a b → S a b) :
    List.Chain' S l := by
  induction l with
  | nil => exact trivial
  | cons x t iht =>
    cases t with
    | nil => simp
    | cons y t' =>
      rw [List.chain'_cons] at h ⊢
      refine ⟨himp x (by simp) y (by simp) h.1, ?_⟩
      refine iht h.2 ?_
      intro a ha b hb hr
      exact himp a (List.mem_cons_of_mem _ ha) b (List.mem_cons_of_mem _ hb) hr

theorem midInv_exit (edges : List GraphEdge) (adj : AdjList)
    (s current : String) (st : BfsState) (lvl : String → Nat)
    (hmid : MidInv edges adj s current st lvl (adjGet adj current)) :
    BfsInv edges adj s st lvl := by
  refine ⟨hmid.visNodup, hmid.sVis, hmid.lvlS, hmid.sNoPar, hmid.parVis,
    hmid.parLvl, hmid.chains, hmid.queueVis, hmid.queueNodup, ?_,
    hmid.queueChain, ?_, ?_⟩
  · intro u hu hq a ha
    by_cases hc : u = current
    · subst hc
      exact hmid.nbDone a ha
    · exact hmid.nbProcOld u hu hq hc a ha
  · intro u hu hq v hv
    by_cases hc : u = current
    · subst hc
      exact hmid.queueLB v hv
    · exact le_trans (hmid.procLeCur u hu hq hc) (hmid.queueLB v hv)
  · intro h t hqe v hv
    have h1 := hmid.queueUB v hv
    have h2 := hmid.queueLB h (by rw [hqe]; exact List.mem_cons_self h t)
    omega

theorem midInv_done (edges : List GraphEdge) (adj : AdjList)
    (s current : String) (st : BfsState) (lvl : String → Nat)
    (done : List Adjacent) (a : Adjacent)
    (hmid : MidInv edges adj s current st lvl done)
    (hvis : a.neighbor ∈ st.visited) :
    MidInv edges adj s current st lvl (done ++ [a]) := by
  refine ⟨hmid.visNodup, hmid.sVis, hmid.lvlS, hmid.sNoPar, hmid.parVis,
    hmid.parLvl, hmid.chains, hmid.queueVis, hmid.queueNodup, hmid.curVis,
    hmid.curNotQ, ?_, hmid.nbProcOld, hmid.procLeCur, hmid.queueChain,
    hmid.queueLB, hmid.queueUB⟩
  intro b hb
  rcases List.mem_append.mp hb with hb | hb
  · exact hmid.nbDone b hb
  · simp only [List.mem_singleton] at hb
    subst hb
    refine ⟨hvis, ?_⟩
    by_cases hq : b.neighbor ∈ st.queue
    · exact hmid.queueUB _ hq
    · by_cases hc : b.neighbor = current
      · rw [hc]
        omega
      · have := hmid.procLeCur _ hvis hq hc
        omega

theorem midInv_fresh (edges : List GraphEdge) (adj : AdjList)
    (s current : String) (st : BfsState) (lvl : String → Nat)
    (done : List Adjacent) (a : Adjacent)
    (hsound : ∀ u b, b ∈ adjGet adj u →
      ∃ ed ∈ edges, ed.id = b.edgeId ∧ edgeConnects ed u b.neighbor = true)
    (hmid : MidInv edges adj s current st lvl done)
    (hvis : a.neighbor ∉ st.visited)
    (hanb : a ∈ adjGet adj current) :
    MidInv edges adj s current
      ⟨st.visited ++ [a.neighbor], st.par ++ [(a.neighbor, current, a.edgeId)],
        st.queue ++ [a.neighbor]⟩
      (fun x => if x = a.neighbor then lvl current + 1 else lvl x)
      (done ++ [a]) := by
  have hcur_ne : current ≠ a.neighbor := fun h => hvis (h ▸ hmid.curVis)
  have hs_ne : s ≠ a.neighbor := fun h => hvis (h ▸ hmid.sVis)
  have hlvl_old : ∀ x ∈ st.visited,
      (if x = a.neighbor then lvl current + 1 else lvl x) = lvl x := by
    intro x hx
    rw [if_neg]
    intro h
    exact hvis (h ▸ hx)
  have hparc : parGet st.par a.neighbor = none := by
    cases hp : parGet st.par a.neighbor with
    | none => rfl
    | some r =>
      obtain ⟨u, e⟩ := r
      exact absurd (hmid.parVis _ u e hp).1 hvis
  have hparc' : parGet (st.par ++ [(a.neighbor, current, a.edgeId)])
      a.neighbor = some (current, a.edgeId) := parGet_append_fresh _ _ _ hparc
  have hqc : a.neighbor ∉ st.queue := fun h => hvis (hmid.queueVis _ h)
  refine ⟨?_, ?_, ?_, ?_, ?_, ?_, ?_, ?_, ?_, ?_, ?_, ?_, ?_, ?_, ?_, ?_, ?_⟩
  · rw [List.nodup_append]
    refine ⟨hmid.visNodup, List.nodup_singleton _, ?_⟩
    intro x hx hx'
    simp only [List.mem_singleton] at hx'
    subst hx'
    exact hvis hx
  · exact List.mem_append_left _ hmid.sVis
  · rw [if_neg hs_ne]
    exact hmid.lvlS
  · rw [parGet_append_ne _ _ _ _ hs_ne]
    exact hmid.sNoPar
  · intro v u e hp
    by_cases hvc : v = a.neighbor
    · subst hvc
      rw [hparc'] at hp
      simp only [Option.some.injEq, Prod.mk.injEq] at hp
      obtain ⟨hu, -⟩ := hp
      subst hu
      exact ⟨List.mem_append_right _ (List.mem_singleton.mpr rfl),
        List.mem_append_left _ hmid.curVis⟩
    · rw [parGet_append_ne _ _ _ _ hvc] at hp
      exact ⟨List.mem_append_left _ (hmid.parVis _ _ _ hp).1,
        List.mem_append_left _ (hmid.parVis _ _ _ hp).2⟩
  · intro v u e hp
    by_cases hvc : v = a.neighbor
    · subst hvc
      rw [hparc'] at hp
      simp only [Option.some.injEq, Prod.mk.injEq] at hp
      obtain ⟨hu, -⟩ := hp
      subst hu
      rw [if_pos rfl, if_neg hcur_ne]
    · rw [parGet_append_ne _ _ _ _ hvc] at hp
      rw [if_neg hvc, hlvl_old u (hmid.parVis _ _ _ hp).2]
      exact hmid.parLvl _ _ _ hp
  · intro v hv
    rcases List.mem_append.mp hv with hv | hv
    · obtain ⟨ns, es, hch, hlen⟩ := hmid.chains v hv
      exact ⟨ns, es, hch.mono, by rw [hlvl_old v hv]; exact hlen⟩
    · simp only [List.mem_singleton] at hv
      subst hv
      obtain ⟨cns, ces, hchc, hlenc⟩ := hmid.chains current hmid.curVis
      refine ⟨cns ++ [a.neighbor], ces ++ [a.edgeId],
        PChain.succ hchc.mono hparc' (hsound current a hanb), ?_⟩
      rw [if_pos rfl, List.length_append]
      simp [hlenc]
  · intro v hv
    rcases List.mem_append.mp hv with hv | hv
    · exact List.mem_append_left _ (hmid.queueVis v hv)
    · exact List.mem_append_right _ hv
  · rw [List.nodup_append]
    refine ⟨hmid.queueNodup, List.nodup_singleton _, ?_⟩
    intro x hx hx'
    simp only [List.mem_singleton] at hx'
    subst hx'
    exact hqc hx
  · exact List.mem_append_left _ hmid.curVis
  · intro h
    rcases List.mem_append.mp h with h | h
    · exact hmid.curNotQ h
    · simp only [List.mem_singleton] at h
      exact hcur_ne h
  · intro b hb
    rcases List.mem_append.mp hb with hb | hb
    · obtain ⟨h1, h2⟩ := hmid.nbDone b hb
      refine ⟨List.mem_append_left _ h1, ?_⟩
      rw [hlvl_old _ h1, if_neg hcur_ne]
      exact h2
    · simp only [List.mem_singleton] at hb
      subst hb
      refine ⟨List.mem_append_right _ (List.mem_singleton.mpr rfl), ?_⟩
      rw [if_pos rfl, if_neg hcur_ne]
  · intro u hu huq hune b hb
    have huq' : u ∉ st.queue := fun h => huq (List.mem_append_left _ h)
    have hu' : u ∈ st.visited := by
      rcases List.mem_append.mp hu with hu | hu
      · exact hu
      · simp only [List.mem_singleton] at hu
        subst hu
        exact absurd (List.mem_append_right _ (List.mem_singleton.mpr rfl)) huq
    obtain ⟨h1, h2⟩ := hmid.nbProcOld u hu' huq' hune b hb
    refine ⟨List.mem_append_left _ h1, ?_⟩
    rw [hlvl_old _ h1, hlvl_old _ hu']
    exact h2
  · intro u hu huq hune
    have huq' : u ∉ st.queue := fun h => huq (List.mem_append_left _ h)
    have hu' : u ∈ st.visited := by
      rcases List.mem_append.mp hu with hu | hu
      · exact hu
      · simp only [List.mem_singleton] at hu
        subst hu
        exact absurd (List.mem_append_right _ (List.mem_singleton.mpr rfl)) huq
    rw [hlvl_old _ hu', if_neg hcur_ne]
    exact hmid.procLeCur u hu' huq' hune
  · rw [List.chain'_append]
    refine ⟨?_, by simp, ?_⟩
    · refine chain'_imp_mem _ _ _ hmid.queueChain ?_
      intro x hx y hy hr
      rw [hlvl_old _ (hmid.queueVis _ hx), hlvl_old _ (hmid.queueVis _ hy)]
      exact hr
    · intro x hx y hy
      simp only [List.head?_cons, Option.mem_def, Option.some.injEq] at hy
      subst hy
      have hxq : x ∈ st.queue := List.mem_of_mem_getLast? hx
      rw [hlvl_old _ (hmid.queueVis _ hxq), if_pos rfl]
      exact hmid.queueUB x hxq
  · intro v hv
    rw [if_neg hcur_ne]
    rcases List.mem_append.mp hv with hv | hv
    · rw [hlvl_old _ (hmid.queueVis _ hv)]
      exact hmid.queueLB v hv
    · simp only [List.mem_singleton] at hv
      subst hv
      rw [if_pos rfl]
      omega
  · intro v hv
    rw [if_neg hcur_ne]
    rcases List.mem_append.mp hv with hv | hv
    · rw [hlvl_old _ (hmid.queueVis _ hv)]
      exact hmid.queueUB v hv
    · simp only [List.mem_singleton] at hv
      subst hv
      rw [if_pos rfl]

theorem bfsProcess_spec (edges : List GraphEdge) (adj : AdjList)
    (s current endId : String)
    (hsound : ∀ u b, b ∈ adjGet adj u →
      ∃ ed ∈ edges, ed.id = b.edgeId ∧ edgeConnects ed u b.neighbor = true) :
    ∀ (as done : List Adjacent) (st : BfsState) (lvl : String → Nat),
      adjGet adj current = done ++ as →
      MidInv edges adj s current st lvl done →
      endId ∉ st.visited →
      (∀ r st', bfsProcess endId current as st = (some r, st') →
        r.nodeIds.head? = some s ∧ r.nodeIds.getLast? = some endId ∧
        validSteps edges r.nodeIds r.edgeIds = true ∧
        r.edgeIds.length = lvl current + 1) ∧
      (∀ st', bfsProcess endId current as st = (none, st') →
        ∃ lvl', BfsInv edges adj s st' lvl' ∧ endId ∉ st'.visited) := by
  intro as
  induction as with
  | nil =>
    intro done st lvl hadj hmid hend
    constructor
    · intro r st' hr
      simp only [bfsProcess] at hr
      simp at hr
    · intro st' hst
      simp only [bfsProcess, Prod.mk.injEq] at hst
      obtain ⟨-, hst⟩ := hst
      subst hst
      rw [List.append_nil] at hadj
      exact ⟨lvl, midInv_exit edges adj s current st lvl (hadj.symm ▸ hmid), hend⟩
  | cons a rest ih =>
    intro done st lvl hadj hmid hend
    have hanb : a ∈ adjGet adj current := by
      rw [hadj]
      exact List.mem_append_right _ (List.mem_cons_self _ _)
    have hadj' : adjGet adj current = (done ++ [a]) ++ rest := by
      rw [hadj]
      simp
    by_cases hvis : a.neighbor ∈ st.visited
    · have hcont : st.visited.contains a.neighbor = true :=
        (contains_iff_mem _ _).mpr hvis
      have heq : bfsProcess endId current (a :: rest) st =
          bfsProcess endId current rest st := by
        simp only [bfsProcess, hcont, if_true]
      rw [heq]
      exact ih (done ++ [a]) st lvl hadj'
        (midInv_done edges adj s current st lvl done a hmid hvis) hend
    · have hcont : st.visited.contains a.neighbor = false := by
        cases hc : st.visited.contains a.neighbor
        · rfl
        · exact absurd ((contains_iff_mem _ _).mp hc) hvis
      have hmidf := midInv_fresh edges adj s current st lvl done a hsound hmid
        hvis hanb
      by_cases hcend : a.neighbor = endId
      · have heq : bfsProcess endId current (a :: rest) st =
            (some (reconstruct
              (st.par ++ [(a.neighbor, current, a.edgeId)]) endId),
             ⟨st.visited ++ [a.neighbor],
              st.par ++ [(a.neighbor, current, a.edgeId)], st.queue⟩) := by
          simp only [bfsProcess, hcont, Bool.false_eq_true, if_false]
          rw [if_pos hcend]
        rw [heq]
        subst hcend
        obtain ⟨ns, es, hch, hlen⟩ := hmidf.chains a.neighbor
          (List.mem_append_right _ (List.mem_singleton.mpr rfl))
        rw [if_pos rfl] at hlen
        have hsnopar' : parGet
            (st.par ++ [(a.neighbor, current, a.edgeId)]) s = none :=
          hmidf.sNoPar
        have hflen : es.length ≤
            (st.par ++ [(a.neighbor, current, a.edgeId)]).length :=
          PChain.es_length_le _ hmidf.parLvl hch
        have hrec := reconstruct_eq edges _ s a.neighbor ns es hsnopar' hch
          (le_trans hflen (Nat.le_succ _))
        constructor
        · intro r st' hr
          simp only [Prod.mk.injEq] at hr
          obtain ⟨hr1, -⟩ := hr
          have hr2 := Option.some.inj hr1
          rw [hrec] at hr2
          subst hr2
          exact ⟨hch.head_eq, hch.last_eq, hch.valid, hlen⟩
        · intro st' hst
          simp at hst
      · have heq : bfsProcess endId current (a :: rest) st =
            bfsProcess endId current rest
              ⟨st.visited ++ [a.neighbor],
               st.par ++ [(a.neighbor, current, a.edgeId)],
               st.queue ++ [a.neighbor]⟩ := by
          simp only [bfsProcess, hcont, Bool.false_eq_true, if_false]
          rw [if_neg hcend]
        rw [heq]
        have hcur_ne : ¬ (current = a.neighbor) := fun h => hvis (h ▸ hmid.curVis)
        have hend' : endId ∉ st.visited ++ [a.neighbor] := by
          intro h
          rcases List.mem_append.mp h with h | h
          · exact hend h
          · simp only [List.mem_singleton] at h
            exact hcend h.symm
        obtain ⟨hsome, hnone⟩ := ih (done ++ [a]) _
          (fun x => if x = a.neighbor then lvl current + 1 else lvl x)
          hadj' hmidf hend'
        constructor
        · intro r st' hr
          obtain ⟨h1, h2, h3, h4⟩ := hsome r st' hr
          refine ⟨h1, h2, h3, ?_⟩
          rw [h4, if_neg hcur_ne]
        · exact hnone

theorem bfs_unvisited_far (edges : List GraphEdge) (adj : AdjList)
    (s : String) (st : BfsState) (lvl : String → Nat)
    (hinv : BfsInv edges adj s st lvl)
    (hcomp : ∀ u v, adjacentIn edges u v = true →
      ∃ a ∈ adjGet adj u, a.neighbor = v) :
    ∀ n w, ReachN edges s w n → (∀ q ∈ st.queue, n < lvl q) →
      w ∈ st.visited ∧ lvl w ≤ n := by
  intro n
  induction n with
  | zero =>
    intro w hw hq
    have hws := ReachN.inv_zero hw
    subst hws
    exact ⟨hinv.sVis, le_of_eq hinv.lvlS⟩
  | succ m ih =>
    intro w hw hq
    obtain ⟨v, hv, hadjv⟩ := ReachN.inv_succ hw
    have hm : ∀ q ∈ st.queue, m < lvl q := by
      intro q hq'
      have := hq q hq'
      omega
    obtain ⟨hvvis, hvlvl⟩ := ih v hv hm
    have hvnq : v ∉ st.queue := by
      intro hmem
      have := hq v hmem
      omega
    obtain ⟨a, ha, hna⟩ := hcomp v w hadjv
    have hres := hinv.nbProc v hvvis hvnq a ha
    rw [hna] at hres
    exact ⟨hres.1, by omega⟩

theorem midInv_dequeue (edges : List GraphEdge) (adj : AdjList)
    (s : String) (st : BfsState) (lvl : String → Nat)
    (current : String) (rest : List String)
    (hq : st.queue = current :: rest)
    (hinv : BfsInv edges adj s st lvl) :
    MidInv edges adj s current ⟨st.visited, st.par, rest⟩ lvl [] := by
  have hcur_mem : current ∈ st.queue := by
    rw [hq]
    exact List.mem_cons_self _ _
  have hcur_vis : current ∈ st.visited := hinv.queueVis _ hcur_mem
  have hnd := hinv.queueNodup
  rw [hq, List.nodup_cons] at hnd
  have hchain := hinv.queueChain
  rw [hq] at hchain
  refine ⟨hinv.visNodup, hinv.sVis, hinv.lvlS, hinv.sNoPar, hinv.parVis,
    hinv.parLvl, hinv.chains, ?_, hnd.2, hcur_vis, hnd.1, ?_, ?_, ?_, ?_, ?_, ?_⟩
  · intro v hv
    exact hinv.queueVis v (by rw [hq]; exact List.mem_cons_of_mem _ hv)
  · intro b hb
    cases hb
  · intro u hu huq hune b hb
    have hunq : u ∉ st.queue := by
      rw [hq]
      intro hmem
      rcases List.mem_cons.mp hmem with h | h
      · exact hune h
      · exact huq h
    exact hinv.nbProc u hu hunq b hb
  · intro u hu huq hune
    have hunq : u ∉ st.queue := by
      rw [hq]
      intro hmem
      rcases List.mem_cons.mp hmem with h | h
      · exact hune h
      · exact huq h
    exact hinv.procLe u hu hunq current hcur_mem
  · exact hchain.tail
  · intro v hv
    exact chain_le_head lvl current rest hchain v hv
  · intro v hv
    exact hinv.band current rest hq v
      (by rw [hq]; exact List.mem_cons_of_mem _ hv)

theorem bfsLoop_spec (edges : List GraphEdge) (adj : AdjList)
    (s endId : String)
    (hsound : ∀ u b, b ∈ adjGet adj u →
      ∃ ed ∈ edges, ed.id = b.edgeId ∧ edgeConnects ed u b.neighbor = true)
    (hcomp : ∀ u v, adjacentIn edges u v = true →
      ∃ a ∈ adjGet adj u, a.neighbor = v) :
    ∀ fuel st lvl, BfsInv edges adj s st lvl → endId ∉ st.visited →
      ∀ r, bfsLoop adj endId fuel st = some r →
        r.nodeIds.head? = some s ∧ r.nodeIds.getLast? = some endId ∧
        validSteps edges r.nodeIds r.edgeIds = true ∧
        (∀ n, ReachN edges s endId n → r.edgeIds.length ≤ n) := by
  intro fuel
  induction fuel with
  | zero =>
    intro st lvl _ _ r hr
    simp [bfsLoop] at hr
  | succ f ih =>
    intro st lvl hinv hend r hr
    cases hqe : st.queue with
    | nil =>
      simp only [bfsLoop, hqe] at hr
      cases hr
    | cons current rest =>
      simp only [bfsLoop, hqe] at hr
      have hmid := midInv_dequeue edges adj s st lvl current rest hqe hinv
      obtain ⟨hsome, hnone⟩ := bfsProcess_spec edges adj s current endId hsound
        (adjGet adj current) [] ⟨st.visited, st.par, rest⟩ lvl rfl hmid hend
      cases hbp : bfsProcess endId current (adjGet adj current)
          ⟨st.visited, st.par, rest⟩ with
      | mk o st' =>
        rw [hbp] at hr
        cases o with
        | some r' =>
          have hr' : some r' = some r := hr
          have hrr := Option.some.inj hr'
          subst hrr
          obtain ⟨h1, h2, h3, h4⟩ := hsome r' st' hbp
          refine ⟨h1, h2, h3, ?_⟩
          intro n hn
          rw [h4]
          by_contra hcon
          push_neg at hcon
          have hnle : n ≤ lvl current := by omega
          have hq_lb : ∀ q ∈ st.queue, lvl current ≤ lvl q := by
            rw [hqe]
            intro q hq'
            rcases List.mem_cons.mp hq' with rfl | hq'
            · exact le_refl _
            · have hchain := hinv.queueChain
              rw [hqe] at hchain
              exact chain_le_head lvl current rest hchain q hq'
          cases n with
          | zero =>
            have hws := ReachN.inv_zero hn
            subst hws
            exact hend hinv.sVis
          | succ m =>
            obtain ⟨v, hv, hadjv⟩ := ReachN.inv_succ hn
            have hm : ∀ q ∈ st.queue, m < lvl q := by
              intro q hq'
              have := hq_lb q hq'
              omega
            obtain ⟨hvvis, hvlvl⟩ :=
              bfs_unvisited_far edges adj s st lvl hinv hcomp m v hv hm
            have hvnq : v ∉ st.queue := by
              intro hmem
              have := hm v hmem
              omega
            obtain ⟨b, hb, hnb⟩ := hcomp v endId hadjv
            have hres := hinv.nbProc v hvvis hvnq b hb
            rw [hnb] at hres
            exact hend hres.1
        | none =>
          have hr' : bfsLoop adj endId f st' = some r := hr
          obtain ⟨lvl', hinv', hend'⟩ := hnone st' hbp
          exact ih st' lvl' hinv' hend' r hr'

theorem findShortestPath_some_spec (edges : List GraphEdge)
    (startId endId : String) (hne : startId ≠ endId) (p : PathResult)
    (h : findShortestPath edges startId endId = some p) :
    p.nodeIds.head? = some startId ∧ p.nodeIds.getLast? = some endId ∧
    validSteps edges p.nodeIds p.edgeIds = true ∧
    ∀ n, ReachN edges startId endId n → p.edgeIds.length ≤ n := by
  unfold findShortestPath at h
  rw [if_neg hne] at h
  by_cases hhas : (!(adjHas (buildAdj edges) startId) ||
      !(adjHas (buildAdj edges) endId)) = true
  · rw [if_pos hhas] at h
    cases h
  · rw [if_neg hhas] at h
    have hinv0 : BfsInv edges (buildAdj edges) startId
        ⟨[startId], [], [startId]⟩ (fun _ => 0) := by
      refine ⟨?_, ?_, rfl, rfl, ?_, ?_, ?_, ?_, ?_, ?_, ?_, ?_, ?_⟩
      · simp
      · simp
      · intro v u e hp
        simp [parGet, List.find?] at hp
      · intro v u e hp
        simp [parGet, List.find?] at hp
      · intro v hv
        simp only [List.mem_singleton] at hv
        refine ⟨[v], [], ?_, rfl⟩
        rw [hv]
        exact PChain.zero
      · intro v hv
        exact hv
      · simp
      · intro u hu huq b hb
        exact absurd hu huq
      · simp
      · intro u hu huq v hv
        exact absurd hu huq
      · intro hh t hqe v hv
        simp
    have hend0 : endId ∉ [startId] := by
      intro hmem
      simp only [List.mem_singleton] at hmem
      exact hne hmem.symm
    exact bfsLoop_spec edges (buildAdj edges) startId endId
      (buildAdj_sound edges) (buildAdj_complete edges)
      ((buildAdj edges).length + 1) ⟨[startId], [], [startId]⟩ (fun _ => 0)
      hinv0 hend0 p h

/-- C1: for every edge list and distinct `startId`/`endId`, a path returned
by `findShortestPath` starts at `startId`, ends at `endId`, joins each
consecutive node pair by an edge of the list whose id is recorded in
`edgeIds`, and no walk between the two endpoints in the undirected graph
induced by the edge list has fewer edges. -/
theorem c1_shortest_path_correct (edges : List GraphEdge)
    (startId endId : String) (hne : startId ≠ endId) (p : PathResult)
    (h : findShortestPath edges startId endId = some p) :
    p.nodeIds.head? = some startId ∧ p.nodeIds.getLast? = some endId ∧
    validSteps edges p.nodeIds p.edgeIds = true ∧
    ∀ l, isWalk edges l = true → l.head? = some startId →
      l.getLast? = some endId → p.edgeIds.length + 1 ≤ l.length := by
  obtain ⟨h1, h2, h3, h4⟩ :=
    findShortestPath_some_spec edges startId endId hne p h
  refine ⟨h1, h2, h3, ?_⟩
  intro l hw hh hl
  have hr := isWalk_reachN edges l startId endId hw hh hl
  have hmin := h4 _ hr
  have hlpos : 1 ≤ l.length := by
    cases l
    · cases hh
    · simp
  omega

/-- Witness for C1 on the concrete graph: the returned path a−c−d has the
claimed endpoints, valid recorded edges, and minimal length. -/
theorem c1_witness :
    ("a" : String) ≠ "d" ∧
    ((PathResult.mk ["a", "c", "d"] ["e3", "e4"]).nodeIds.head? = some "a" ∧
     (PathResult.mk ["a", "c", "d"] ["e3", "e4"]).nodeIds.getLast? = some "d" ∧
     validSteps c1edges (PathResult.mk ["a", "c", "d"] ["e3", "e4"]).nodeIds
       (PathResult.mk ["a", "c", "d"] ["e3", "e4"]).edgeIds = true ∧
     ∀ l, isWalk c1edges l = true → l.head? = some "a" →
       l.getLast? = some "d" →
       (PathResult.mk ["a", "c", "d"] ["e3", "e4"]).edgeIds.length + 1 ≤
         l.length) :=
  ⟨by decide,
   c1_shortest_path_correct c1edges "a" "d" (by decide)
     (PathResult.mk ["a", "c", "d"] ["e3", "e4"]) (by decide)⟩

/-- C4 counterexample: with an empty edge list, "a" occurs in no edge, yet
`findShortestPath [] "a" "a"` returns a path instead of the claimed
absent result — the `startId == endId` early return precedes the
endpoint-presence check. -/
theorem c4_counterexample :
    occursIn [] "a" = false ∧
    findShortestPath [] "a" "a" = some ⟨["a"], []⟩ :=
  ⟨by decide, by decide⟩

/-- C4 (amended): for DISTINCT `startId`/`endId`, `findShortestPath` returns
none whenever either id occurs in no edge of the list, and whenever no walk
of the undirected graph joins the two ids. -/
theorem c4_none_cases (edges : List GraphEdge) (startId endId : String)
    (hne : startId ≠ endId) :
    ((occursIn edges startId = false ∨ occursIn edges endId = false) →
      findShortestPath edges startId endId = none) ∧
    ((∀ l, isWalk edges l = true → l.head? = some startId →
        l.getLast? = some endId → False) →
      findShortestPath edges startId endId = none) := by
  constructor
  · intro habs
    unfold findShortestPath
    rw [if_neg hne]
    have hcond : (!(adjHas (buildAdj edges) startId) ||
        !(adjHas (buildAdj edges) endId)) = true := by
      rcases habs with h | h
      · have hf : adjHas (buildAdj edges) startId = false := by
          cases hh : adjHas (buildAdj edges) startId
          · rfl
          · have := (buildAdj_has_iff edges startId).mp hh
            rw [h] at this
            cases this
        simp [hf]
      · have hf : adjHas (buildAdj edges) endId = false := by
          cases hh : adjHas (buildAdj edges) endId
          · rfl
          · have := (buildAdj_has_iff edges endId).mp hh
            rw [h] at this
            cases this
        simp [hf]
    rw [if_pos hcond]
  · intro hnowalk
    cases hres : findShortestPath edges startId endId with
    | none => rfl
    | some p =>
      exfalso
      obtain ⟨h1, h2, h3, -⟩ :=
        findShortestPath_some_spec edges startId endId hne p hres
      exact hnowalk p.nodeIds (validSteps_isWalk edges _ _ h3) h1 h2

/-- Witness for C4 on the concrete graph a−b: the id "z" occurs in no edge
and the lookup from "a" to "z" returns none. -/
theorem c4_witness :
    ("a" : String) ≠ "z" ∧ occursIn c4edges "z" = false ∧
    findShortestPath c4edges "a" "z" = none :=
  ⟨by decide, by decide,
    (c4_none_cases c4edges "a" "z" (by decide)).1 (Or.inr (by decide))⟩

end WikiKG
